import Mathlib

/-!
Verification of the repair pipeline of auto_fix_multilang.py.

Strings are embedded as List Char.  Python functions on text are translated
to computable Lean functions on List Char; Python None / int arguments
become Option Int; Python (bool, message) results become Bool x Option of a
structured reason type.  Each definition mirrors the source function of the
same (or snake-cased) name.
-/

namespace AutoFix

/-- Characters matched by the Python regex class backslash-s for ASCII input
(the source operates on ASCII program text). -/
def isSpaceChar (c : Char) : Bool :=
  c = ' ' || c = '\t' || c = '\n' || c = '\x0b' || c = '\x0c' || c = '\r'

/-- Characters matched by the Python regex class backslash-d (ASCII digits). -/
def isDigitChar (c : Char) : Bool :=
  '0' ≤ c && c ≤ '9'

/-- Characters matched by the Python regex class backslash-w for ASCII input. -/
def isWordChar (c : Char) : Bool :=
  ('a' ≤ c && c ≤ 'z') || ('A' ≤ c && c ≤ 'Z') || isDigitChar c || c = '_'

/-- First character class of a Python identifier match [a-zA-Z_]. -/
def isIdentStart (c : Char) : Bool :=
  ('a' ≤ c && c ≤ 'z') || ('A' ≤ c && c ≤ 'Z') || c = '_'

/-- Characters of the regex class [backslash-w.] used for module paths. -/
def isDotWord (c : Char) : Bool :=
  isWordChar c || c = '.'

/-- The character left brace (written via its code to keep sources plain). -/
def lbrace : Char := '\x7b'

/-- The character right brace. -/
def rbrace : Char := '\x7d'

/-- Python substring test: pat occurs contiguously in s (the in operator). -/
def containsSub (s pat : List Char) : Bool :=
  match s with
  | [] => pat.isEmpty
  | _ :: rest => pat.isPrefixOf s || containsSub rest pat

/-- Python str.replace(old, new, 1): replace the first occurrence of old.
For old = "" Python inserts new once at the front. -/
def replaceFirst (old new : List Char) : List Char → List Char
  | [] => if old = [] then new else []
  | c :: rest =>
    if old ≠ [] ∧ old.isPrefixOf (c :: rest) then
      new ++ (c :: rest).drop old.length
    else if old = [] then new ++ c :: rest
    else c :: replaceFirst old new rest

/-- Python str.replace(old, new): replace every non-overlapping occurrence,
scanning left to right and resuming after each replacement.  For old = ""
Python inserts new at every gap.  The fuel bounds the scan steps; every
step consumes at least one character, so length + 1 always suffices. -/
def replaceAllFuel (old new : List Char) : Nat → List Char → List Char
  | 0, s => s
  | _ + 1, [] => if old = [] then new else []
  | fuel + 1, c :: rest =>
    if old ≠ [] ∧ old.isPrefixOf (c :: rest) then
      new ++ replaceAllFuel old new fuel ((c :: rest).drop old.length)
    else if old = [] then new ++ c :: replaceAllFuel old new fuel rest
    else c :: replaceAllFuel old new fuel rest

/-- Python str.replace(old, new) over a whole string. -/
def replaceAll (old new s : List Char) : List Char :=
  replaceAllFuel old new (s.length + 1) s

/-- Python str.rstrip(): drop trailing whitespace. -/
def rstrip (s : List Char) : List Char :=
  (s.reverse.dropWhile isSpaceChar).reverse

/-- Python str.lstrip(): drop leading whitespace. -/
def lstrip (s : List Char) : List Char :=
  s.dropWhile isSpaceChar

/-- Python str.strip(): drop whitespace at both ends. -/
def strip (s : List Char) : List Char :=
  rstrip (lstrip s)

/-- Python code.split(backslash-n): split on newline characters; the empty
string yields one empty piece. -/
def splitNl : List Char → List (List Char)
  | [] => [[]]
  | c :: rest =>
    if c = '\n' then [] :: splitNl rest
    else
      match splitNl rest with
      | [] => [[c]]
      | l :: ls => (c :: l) :: ls

/-- Python backslash-n.join(lines). -/
def joinNl : List (List Char) → List Char
  | [] => []
  | [l] => l
  | l :: ls => l ++ '\n' :: joinNl ls

/-- Python line.endswith(single character c) on the last character. -/
def endsWithChar (s : List Char) (c : Char) : Bool :=
  s.getLast? = some c

theorem splitNl_ne_nil (s : List Char) : splitNl s ≠ [] := by
  induction s with
  | nil => simp [splitNl]
  | cons c rest ih =>
    simp only [splitNl]
    split
    · simp
    · cases h : splitNl rest with
      | nil => simp
      | cons l ls => simp

theorem joinNl_cons (l : List Char) (ls : List (List Char)) (h : ls ≠ []) :
    joinNl (l :: ls) = l ++ '\n' :: joinNl ls := by
  cases ls with
  | nil => exact absurd rfl h
  | cons a as => rfl

theorem joinNl_splitNl (s : List Char) : joinNl (splitNl s) = s := by
  induction s with
  | nil => simp [splitNl, joinNl]
  | cons c rest ih =>
    simp only [splitNl]
    split
    · rename_i hc
      rw [joinNl_cons _ _ (splitNl_ne_nil rest), ih, hc]
      simp
    · cases h : splitNl rest with
      | nil => exact absurd h (splitNl_ne_nil rest)
      | cons l ls =>
        rw [h] at ih
        cases ls with
        | nil => simpa [joinNl] using ih
        | cons b bs =>
          rw [joinNl_cons _ _ (by simp)] at ih ⊢
          simpa using ih

theorem not_newline_mem_splitNl (s : List Char) :
    ∀ l ∈ splitNl s, '\n' ∉ l := by
  induction s with
  | nil => intro l hl; simp [splitNl] at hl; simp [hl]
  | cons c rest ih =>
    intro l hl
    by_cases hc : c = '\n'
    · simp only [splitNl, if_pos hc] at hl
      rcases List.mem_cons.mp hl with h1 | h1
      · simp [h1]
      · exact ih l h1
    · simp only [splitNl, if_neg hc] at hl
      rcases hmatch : splitNl rest with _ | ⟨a, as⟩
      · exact absurd hmatch (splitNl_ne_nil rest)
      · rw [hmatch] at hl
        rcases List.mem_cons.mp hl with h1 | h1
        · subst h1
          intro hmem
          rcases List.mem_cons.mp hmem with h2 | h2
          · exact hc h2.symm
          · exact ih a (by rw [hmatch]; exact List.mem_cons_self a as) h2
        · exact ih l (by rw [hmatch]; exact List.mem_cons.mpr (Or.inr h1))

theorem splitNl_joinNl (ls : List (List Char)) (hne : ls ≠ [])
    (h : ∀ l ∈ ls, '\n' ∉ l) : splitNl (joinNl ls) = ls := by
  induction ls with
  | nil => exact absurd rfl hne
  | cons l rest ih =>
    cases rest with
    | nil =>
      simp only [joinNl]
      have hl : '\n' ∉ l := h l (List.mem_cons_self l [])
      clear ih hne h
      induction l with
      | nil => simp [splitNl]
      | cons c cs ihc =>
        have hc : c ≠ '\n' := fun hc => hl (by simp [hc])
        have hcs : '\n' ∉ cs := fun hx => hl (List.mem_cons.mpr (Or.inr hx))
        simp only [splitNl, if_neg hc, ihc hcs]
    | cons m ms =>
      rw [joinNl_cons l (m :: ms) (by simp)]
      have hl : '\n' ∉ l := h l (List.mem_cons_self l (m :: ms))
      have hrest : splitNl (joinNl (m :: ms)) = m :: ms :=
        ih (by simp) (fun x hx => h x (List.mem_cons.mpr (Or.inr hx)))
      clear ih hne h
      induction l with
      | nil => simp [splitNl, hrest]
      | cons c cs ihc =>
        have hc : c ≠ '\n' := fun hc => hl (by simp [hc])
        have hcs : '\n' ∉ cs := fun hx => hl (List.mem_cons.mpr (Or.inr hx))
        have h2 := ihc hcs
        simp only [List.cons_append, splitNl, if_neg hc]
        rw [show cs.append ('\n' :: joinNl (m :: ms)) = cs ++ '\n' :: joinNl (m :: ms) from rfl,
          h2]

/-- Python code.count(single character c). -/
def countChar (s : List Char) (c : Char) : Nat :=
  s.count c

/-- fix_eof_brace (auto_fix_multilang.py:846): append the missing closing
braces at the end of the file when open braces outnumber closing ones. -/
def fix_eof_brace (code : List Char) : List Char :=
  let lines := splitNl code
  let openCount : Int := (countChar code lbrace : Int) - (countChar code rbrace : Int)
  if openCount > 0 then
    joinNl (lines ++ List.replicate openCount.toNat [rbrace])
  else
    joinNl lines

theorem joinNl_append_single (ls : List (List Char)) (a : List Char)
    (h : ls ≠ []) : joinNl (ls ++ [a]) = joinNl ls ++ '\n' :: a := by
  induction ls with
  | nil => exact absurd rfl h
  | cons l rest ih =>
    cases rest with
    | nil => simp [joinNl]
    | cons m ms =>
      rw [List.cons_append, joinNl_cons l ((m :: ms) ++ [a]) (by simp),
        joinNl_cons l (m :: ms) (by simp), ih (by simp)]
      simp

/-- C6: a source text whose open-brace count exceeds its close-brace count by
exactly 2 gets exactly two closing-brace lines appended at the end of the
file, all original content unchanged. -/
theorem fix_eof_brace_appends_two (code : List Char)
    (h : countChar code lbrace = countChar code rbrace + 2) :
    fix_eof_brace code = code ++ '\n' :: rbrace :: '\n' :: [rbrace] := by
  unfold fix_eof_brace
  have hpos : ((countChar code lbrace : Int) - (countChar code rbrace : Int)) > 0 := by
    omega
  rw [if_pos hpos]
  have htwo : ((countChar code lbrace : Int) - (countChar code rbrace : Int)).toNat = 2 := by
    omega
  rw [htwo]
  show joinNl (splitNl code ++ [[rbrace], [rbrace]]) = _
  have : splitNl code ++ [[rbrace], [rbrace]] = (splitNl code ++ [[rbrace]]) ++ [[rbrace]] := by
    simp
  rw [this, joinNl_append_single _ _ (by simp),
    joinNl_append_single _ _ (splitNl_ne_nil code), joinNl_splitNl]
  simp

/-- C6 witness: a concrete text with two unclosed braces. -/
theorem fix_eof_brace_appends_two_witness :
    countChar ("a".toList ++ [lbrace, lbrace]) lbrace
      = countChar ("a".toList ++ [lbrace, lbrace]) rbrace + 2 ∧
    fix_eof_brace ("a".toList ++ [lbrace, lbrace])
      = ("a".toList ++ [lbrace, lbrace]) ++ '\n' :: rbrace :: '\n' :: [rbrace] :=
  ⟨by decide, fix_eof_brace_appends_two ("a".toList ++ [lbrace, lbrace]) (by decide)⟩

/-- Leftmost-match scan for
re.sub of pattern (backslash-s+)(backslash-w+)backslash-s*=backslash-s*(backslash-w+)
with replacement group1 group2 " == " group3, as used by
fix_python_invalid_assignment.  Greedy matching of this pattern never
backtracks (each character class is disjoint from the character that must
follow it), so this scan is exactly the Python substitution: leftmost
non-overlapping matches, resuming after each match, advancing one character
after a failed attempt.  The fuel bounds scan steps; every step consumes at
least one character, so length + 1 always suffices. -/
def subAssignEqFuel : Nat → List Char → List Char
  | 0, s => s
  | _ + 1, [] => []
  | fuel + 1, c :: rest =>
    if isSpaceChar c then
      let ws1 := (c :: rest).takeWhile isSpaceChar
      let r1 := (c :: rest).dropWhile isSpaceChar
      let w1 := r1.takeWhile isWordChar
      let r2 := (r1.dropWhile isWordChar).dropWhile isSpaceChar
      match w1, r2 with
      | _ :: _, '=' :: r3 =>
        let r4 := r3.dropWhile isSpaceChar
        let w2 := r4.takeWhile isWordChar
        match w2 with
        | [] => c :: subAssignEqFuel fuel rest
        | _ :: _ => ws1 ++ w1 ++ ' ' :: '=' :: '=' :: ' ' :: w2
            ++ subAssignEqFuel fuel (r4.dropWhile isWordChar)
      | _, _ => c :: subAssignEqFuel fuel rest
    else c :: subAssignEqFuel fuel rest

/-- re.sub of the invalid-assignment pattern over a whole line. -/
def subAssignEq (s : List Char) : List Char :=
  subAssignEqFuel (s.length + 1) s

/-- fix_python_invalid_assignment (auto_fix_multilang.py:1344): on the
diagnosed line, rewrite an assignment inside an if/while/elif condition
into a comparison. -/
def fix_python_invalid_assignment (code : List Char) (lineNum : Option Int) : List Char :=
  match lineNum with
  | none => code
  | some n =>
    if n = 0 then code
    else
      let lines := splitNl code
      if 0 < n ∧ n ≤ (lines.length : Int) then
        let line := lines.getD (n.toNat - 1) []
        if containsSub line (" = ".toList) ∧
            (containsSub line ("if ".toList) ∨ containsSub line ("while ".toList) ∨
              containsSub line ("elif ".toList)) then
          let newLine := subAssignEq line
          if newLine ≠ line then joinNl (lines.set (n.toNat - 1) newLine)
          else joinNl lines
        else joinNl lines
      else code

/-- C9: a line that reads if x = 5: is rewritten in place to if x == 5:
with all other lines unchanged (the rule handler is deterministic and calls
no oracle). -/
theorem fix_python_invalid_assignment_rewrites (code : List Char) (i : Nat)
    (hi : i < (splitNl code).length)
    (hline : (splitNl code).getD i [] = "if x = 5:".toList) :
    fix_python_invalid_assignment code (some ((i : Int) + 1)) =
      joinNl ((splitNl code).set i ("if x == 5:".toList)) := by
  unfold fix_python_invalid_assignment
  have hne : ((i : Int) + 1) ≠ 0 := by omega
  dsimp only
  rw [if_neg hne]
  have hrange : 0 < ((i : Int) + 1) ∧ ((i : Int) + 1) ≤ ((splitNl code).length : Int) := by
    constructor
    · omega
    · omega
  rw [if_pos hrange]
  have hidx : (((i : Int) + 1)).toNat - 1 = i := by omega
  rw [hidx, hline]
  rw [if_pos (by decide), if_pos (by decide)]
  rfl

/-- C9 witness: a two-line program with the broken condition on line 1. -/
theorem fix_python_invalid_assignment_rewrites_witness :
    0 < (splitNl ("if x = 5:\ny = 1".toList)).length ∧
    fix_python_invalid_assignment ("if x = 5:\ny = 1".toList) (some ((0 : Int) + 1)) =
      joinNl ((splitNl ("if x = 5:\ny = 1".toList)).set 0 ("if x == 5:".toList)) :=
  ⟨by decide, fix_python_invalid_assignment_rewrites ("if x = 5:\ny = 1".toList) 0
    (by decide) (by decide)⟩

/-- Does one of the inline comment markers "//", "/*", "#" match at the head
of s? -/
def markerAt (s : List Char) : Bool :=
  ['/', '/'].isPrefixOf s || ['/', '*'].isPrefixOf s || ['#'].isPrefixOf s

/-- The earliest index at which a comment marker occurs.  The source computes
find() for each marker and keeps the smallest non-negative result, which
equals the first scan position at which some marker matches. -/
def commentScan : List Char → Option Nat
  | [] => none
  | c :: rest =>
    if markerAt (c :: rest) then some 0
    else (commentScan rest).map (· + 1)

/-- add_semicolon_at_line (auto_fix_multilang.py:551): append a semicolon to
the diagnosed line, inserting it before an inline comment when one is
present.  A falsy Python line_num (None or 0) returns the text unchanged. -/
def add_semicolon_at_line (code : List Char) (lineNum : Option Int) : List Char :=
  match lineNum with
  | none => code
  | some n =>
    if n = 0 then code
    else
      let lines := splitNl code
      if 0 < n ∧ n ≤ (lines.length : Int) then
        let line := rstrip (lines.getD (n.toNat - 1) [])
        if endsWithChar line ';' || endsWithChar line lbrace || endsWithChar line rbrace then
          code
        else
          match commentScan line with
          | some p =>
            if 0 < p then
              let before := rstrip (line.take p)
              let comment := line.drop p
              if before ≠ [] ∧ ¬ endsWithChar before ';' then
                joinNl (lines.set (n.toNat - 1) (before ++ ';' :: ' ' :: ' ' :: comment))
              else joinNl lines
            else joinNl (lines.set (n.toNat - 1) (line ++ [';']))
          | none => joinNl (lines.set (n.toNat - 1) (line ++ [';']))
      else joinNl lines

theorem endsWithChar_iff (s : List Char) (c : Char) :
    endsWithChar s c = true ↔ s.getLast? = some c := by
  simp [endsWithChar]

theorem rstrip_isPrefix (s : List Char) : rstrip s <+: s := by
  have h1 : List.dropWhile isSpaceChar s.reverse <:+ s.reverse :=
    List.dropWhile_suffix isSpaceChar
  have h2 : (rstrip s).reverse <:+ s.reverse := by
    simpa [rstrip] using h1
  exact List.reverse_suffix.mp h2

theorem mem_of_mem_rstrip {a : Char} {s : List Char} (h : a ∈ rstrip s) : a ∈ s :=
  (rstrip_isPrefix s).subset h

theorem head?_dropWhile_false (p : Char → Bool) (l : List Char) (c : Char)
    (h : (List.dropWhile p l).head? = some c) : p c = false := by
  induction l with
  | nil => simp [List.dropWhile] at h
  | cons a as ih =>
    rw [List.dropWhile_cons] at h
    by_cases hp : p a = true
    · rw [if_pos hp] at h; exact ih h
    · rw [if_neg hp] at h
      simp at h
      rw [← h]
      exact Bool.eq_false_iff.mpr hp

theorem getLast?_rstrip_not_space (s : List Char) (c : Char)
    (h : (rstrip s).getLast? = some c) : isSpaceChar c = false := by
  have : (List.dropWhile isSpaceChar s.reverse).head? = some c := by
    have := List.getLast?_reverse (List.dropWhile isSpaceChar s.reverse)
    rw [← this]
    simpa [rstrip] using h
  exact head?_dropWhile_false _ _ _ this

theorem rstrip_eq_self_of_getLast (s : List Char) (c : Char)
    (h : s.getLast? = some c) (hc : isSpaceChar c = false) : rstrip s = s := by
  have hrev : s.reverse.head? = some c := by
    rw [List.head?_reverse]; exact h
  rcases hr : s.reverse with _ | ⟨a, t⟩
  · rw [hr] at hrev; simp at hrev
  · rw [hr] at hrev
    have hac : a = c := by simpa using hrev
    have hpa : isSpaceChar a = false := by rw [hac]; exact hc
    have hstep : rstrip s = (a :: t).reverse := by
      simp only [rstrip, hr, List.dropWhile_cons, hpa]
      simp
    rw [hstep, ← hr, List.reverse_reverse]

theorem rstrip_append_semi_sp (x : List Char) :
    rstrip (x ++ [';', ' ', ' ']) = x ++ [';'] := by
  have h1 : isSpaceChar ' ' = true := rfl
  have h2 : isSpaceChar ';' = false := rfl
  simp only [rstrip, List.reverse_append, List.reverse_cons, List.reverse_nil,
    List.nil_append, List.cons_append, List.dropWhile_cons, h1, h2]
  simp

theorem markerAt_two (a b : Char) (l : List Char) :
    markerAt (a :: b :: l) = true ↔
      ('/' = a ∧ '/' = b) ∨ ('/' = a ∧ '*' = b) ∨ '#' = a := by
  simp [markerAt, List.isPrefixOf, or_assoc]

theorem markerAt_hash (l : List Char) : markerAt ('#' :: l) = true := by
  simp [markerAt, List.isPrefixOf]

theorem markerAt_nil : markerAt [] = false := rfl

theorem commentScan_marker (s : List Char) :
    ∀ p, commentScan s = some p →
      markerAt (s.drop p) = true ∧ ∀ i, i < p → markerAt (s.drop i) = false := by
  induction s with
  | nil => intro p h; simp [commentScan] at h
  | cons c rest ih =>
    intro p h
    by_cases hm : markerAt (c :: rest) = true
    · rw [commentScan, if_pos hm] at h
      have : p = 0 := by simpa using h.symm
      subst this
      exact ⟨by simpa using hm, by omega⟩
    · rw [commentScan, if_neg hm] at h
      rcases Option.map_eq_some'.mp h with ⟨q, hq, hqp⟩
      rcases ih q hq with ⟨hmark, hmin⟩
      subst hqp
      refine ⟨by simpa [List.drop_succ_cons] using hmark, ?_⟩
      intro i hi
      cases i with
      | zero => simpa using Bool.eq_false_iff.mpr hm
      | succ j =>
        rw [List.drop_succ_cons]
        exact hmin j (by omega)

theorem commentScan_of_marker (s : List Char) (k : Nat)
    (hmin : ∀ i, i < k → markerAt (s.drop i) = false)
    (hk : markerAt (s.drop k) = true) : commentScan s = some k := by
  induction s generalizing k with
  | nil =>
    exfalso
    rw [List.drop_nil] at hk
    rw [markerAt_nil] at hk
    exact Bool.false_ne_true hk
  | cons c rest ih =>
    cases k with
    | zero =>
      rw [commentScan, if_pos (by simpa using hk)]
    | succ j =>
      have hm0 : markerAt (c :: rest) = false := by simpa using hmin 0 (by omega)
      rw [commentScan, if_neg (by simp [hm0])]
      have := ih j (fun i hi => by simpa [List.drop_succ_cons] using hmin (i + 1) (by omega))
        (by simpa [List.drop_succ_cons] using hk)
      rw [this]
      rfl

theorem getD_set_self (l : List (List Char)) (k : Nat) (a : List Char)
    (h : k < l.length) : (l.set k a).getD k [] = a := by
  rw [List.getD_eq_getElem?_getD, List.getElem?_set_self h]
  rfl

/-- lineArgOutOfRange lineNum numLines: the Python line_num argument is
None, zero, negative, or exceeds the number of lines. -/
def lineArgOutOfRange (lineNum : Option Int) (numLines : Nat) : Prop :=
  lineNum = none ∨ ∃ k : Int, lineNum = some k ∧ (k ≤ 0 ∨ (numLines : Int) < k)

theorem asl_result_of_ends_semi (r : List Char) (n : Int)
    (hn0 : ¬ n = 0) (hrange : 0 < n ∧ n ≤ ((splitNl r).length : Int))
    (h : endsWithChar (rstrip ((splitNl r).getD (n.toNat - 1) [])) ';' = true) :
    add_semicolon_at_line r (some n) = r := by
  simp only [add_semicolon_at_line]
  rw [if_neg hn0, if_pos hrange, h]
  simp

theorem asl_result_of_comment (r : List Char) (n : Int) (L : List Char) (p : Nat)
    (hn0 : ¬ n = 0) (hrange : 0 < n ∧ n ≤ ((splitNl r).length : Int))
    (hL : rstrip ((splitNl r).getD (n.toNat - 1) []) = L)
    (hends : (endsWithChar L ';' || endsWithChar L lbrace || endsWithChar L rbrace) = false)
    (hscan : commentScan L = some p) (hp : 0 < p)
    (hcond : ¬ (rstrip (L.take p) ≠ [] ∧ ¬ endsWithChar (rstrip (L.take p)) ';' = true)) :
    add_semicolon_at_line r (some n) = r := by
  simp only [add_semicolon_at_line]
  rw [if_neg hn0, if_pos hrange, hL, hends]
  simp only [Bool.false_eq_true, if_false]
  rw [hscan]
  simp only [if_pos hp]
  rw [if_neg hcond, joinNl_splitNl]

theorem getLast?_append_right (x y : List Char) (hy : y ≠ []) :
    (x ++ y).getLast? = y.getLast? := by
  rw [List.getLast?_append]
  rcases hl : y.getLast? with _ | d
  · exact absurd (List.getLast?_eq_none_iff.mp hl) hy
  · rfl

theorem endsWithChar_congr (a b : List Char) (x : Char)
    (h : a.getLast? = b.getLast?) : endsWithChar a x = endsWithChar b x := by
  simp [endsWithChar, h]

theorem no_newline_in_line (code : List Char) (k : Nat)
    (hk : k < (splitNl code).length) : '\n' ∉ (splitNl code).getD k [] := by
  rw [List.getD_eq_getElem _ _ hk]
  exact not_newline_mem_splitNl code _ (List.getElem_mem hk)

theorem splitNl_set_join (lines : List (List Char)) (k : Nat) (nl : List Char)
    (hlines : ∀ l ∈ lines, '\n' ∉ l) (hnl : '\n' ∉ nl) (hne : lines ≠ []) :
    splitNl (joinNl (lines.set k nl)) = lines.set k nl := by
  apply splitNl_joinNl
  · intro h
    apply hne
    have := congrArg List.length h
    rw [List.length_set] at this
    exact List.length_eq_zero.mp this
  · intro l hl
    rcases List.mem_or_eq_of_mem_set hl with h | h
    · exact hlines l h
    · rw [h]; exact hnl

theorem markerAt_cons_false (a : Char) (l : List Char)
    (h1 : ¬ '/' = a) (h2 : ¬ '#' = a) : markerAt (a :: l) = false := by
  rcases l with _ | ⟨b, t⟩
  · simp [markerAt, List.isPrefixOf]
    exact h2
  · rw [Bool.eq_false_iff]
    intro htrue
    rcases (markerAt_two a b t).mp htrue with ⟨hx, _⟩ | ⟨hx, _⟩ | hx
    · exact h1 hx
    · exact h1 hx
    · exact h2 hx

theorem asl_result_of_ends_any (r : List Char) (n : Int) (L : List Char)
    (hn0 : ¬ n = 0) (hrange : 0 < n ∧ n ≤ ((splitNl r).length : Int))
    (hL : rstrip ((splitNl r).getD (n.toNat - 1) []) = L)
    (h : (endsWithChar L ';' || endsWithChar L lbrace || endsWithChar L rbrace) = true) :
    add_semicolon_at_line r (some n) = r := by
  simp only [add_semicolon_at_line]
  rw [if_neg hn0, if_pos hrange, hL, h]
  simp

theorem asl_result_append (code : List Char) (n : Int) (L : List Char)
    (hn0 : ¬ n = 0) (hrange : 0 < n ∧ n ≤ ((splitNl code).length : Int))
    (hL : rstrip ((splitNl code).getD (n.toNat - 1) []) = L)
    (hends : (endsWithChar L ';' || endsWithChar L lbrace || endsWithChar L rbrace) = false)
    (hscan : commentScan L = none ∨ commentScan L = some 0) :
    add_semicolon_at_line code (some n)
      = joinNl ((splitNl code).set (n.toNat - 1) (L ++ [';'])) := by
  simp only [add_semicolon_at_line]
  rw [if_neg hn0, if_pos hrange, hL, hends]
  simp only [Bool.false_eq_true, if_false]
  rcases hscan with h | h
  · rw [h]
  · rw [h]
    simp

theorem asl_result_comment (code : List Char) (n : Int) (L : List Char) (p : Nat)
    (hn0 : ¬ n = 0) (hrange : 0 < n ∧ n ≤ ((splitNl code).length : Int))
    (hL : rstrip ((splitNl code).getD (n.toNat - 1) []) = L)
    (hends : (endsWithChar L ';' || endsWithChar L lbrace || endsWithChar L rbrace) = false)
    (hscan : commentScan L = some p) (hp : 0 < p)
    (hcond : rstrip (L.take p) ≠ [] ∧ ¬ endsWithChar (rstrip (L.take p)) ';' = true) :
    add_semicolon_at_line code (some n)
      = joinNl ((splitNl code).set (n.toNat - 1)
          (rstrip (L.take p) ++ ';' :: ' ' :: ' ' :: L.drop p)) := by
  simp only [add_semicolon_at_line]
  rw [if_neg hn0, if_pos hrange, hL, hends]
  simp only [Bool.false_eq_true, if_false]
  rw [hscan]
  simp only [if_pos hp]
  rw [if_pos hcond]

theorem asl_fix_append (code : List Char) (n : Int) (L : List Char)
    (hn0 : ¬ n = 0) (hrange : 0 < n ∧ n ≤ ((splitNl code).length : Int))
    (hkr : n.toNat - 1 < (splitNl code).length)
    (hL : rstrip ((splitNl code).getD (n.toNat - 1) []) = L) :
    add_semicolon_at_line (joinNl ((splitNl code).set (n.toNat - 1) (L ++ [';']))) (some n)
      = joinNl ((splitNl code).set (n.toNat - 1) (L ++ [';'])) := by
  have hnl : '\n' ∉ L ++ [';'] := by
    intro hmem
    rcases List.mem_append.mp hmem with h | h
    · rw [← hL] at h
      exact no_newline_in_line code _ hkr (mem_of_mem_rstrip h)
    · simp at h
  have hsplit : splitNl (joinNl ((splitNl code).set (n.toNat - 1) (L ++ [';'])))
      = (splitNl code).set (n.toNat - 1) (L ++ [';']) :=
    splitNl_set_join _ _ _ (not_newline_mem_splitNl code) hnl (splitNl_ne_nil code)
  apply asl_result_of_ends_semi _ n hn0
  · rw [hsplit, List.length_set]
    exact hrange
  · rw [hsplit, getD_set_self _ _ _ hkr]
    rw [rstrip_eq_self_of_getLast _ ';' (List.getLast?_concat L) rfl]
    exact endsWithChar_iff _ _ |>.mpr (List.getLast?_concat L)

theorem getLast?_drop_of_ne_nil (L : List Char) (q : Nat) (h : L.drop q ≠ []) :
    (L.drop q).getLast? = L.getLast? := by
  conv_rhs => rw [← List.take_append_drop q L]
  rw [getLast?_append_right _ _ h]

theorem asl_fix_comment (code : List Char) (n : Int) (L : List Char) (p : Nat)
    (hn0 : ¬ n = 0) (hrange : 0 < n ∧ n ≤ ((splitNl code).length : Int))
    (hkr : n.toNat - 1 < (splitNl code).length)
    (hL : rstrip ((splitNl code).getD (n.toNat - 1) []) = L)
    (hends : (endsWithChar L ';' || endsWithChar L lbrace || endsWithChar L rbrace) = false)
    (hscan : commentScan L = some p) (hp : 0 < p) :
    add_semicolon_at_line
        (joinNl ((splitNl code).set (n.toNat - 1)
          (rstrip (L.take p) ++ ';' :: ' ' :: ' ' :: L.drop p))) (some n)
      = joinNl ((splitNl code).set (n.toNat - 1)
          (rstrip (L.take p) ++ ';' :: ' ' :: ' ' :: L.drop p)) := by
  obtain ⟨hmark, hmin⟩ := commentScan_marker L p hscan
  set before := rstrip (L.take p) with hbdef
  have hplen : p < L.length := by
    by_contra hle
    rw [List.drop_eq_nil_of_le (by omega)] at hmark
    rw [markerAt_nil] at hmark
    exact Bool.false_ne_true hmark
  have hcomne : L.drop p ≠ [] := by
    intro h
    rw [List.drop_eq_nil_iff_le] at h
    omega
  have hpre : before <+: L :=
    (rstrip_isPrefix (L.take p)).trans (List.take_prefix p L)
  have hBp : before.length ≤ p := by
    have h1 := (rstrip_isPrefix (L.take p)).length_le
    rw [List.length_take] at h1
    rw [hbdef]
    omega
  have hLdecomp : before ++ L.drop before.length = L :=
    List.prefix_iff_eq_append.mp hpre
  have hLne : L ≠ [] := by
    intro h
    rw [h] at hplen
    simp at hplen
  obtain ⟨c0, hc0, hc0ns⟩ : ∃ c0, L.getLast? = some c0 ∧ isSpaceChar c0 = false := by
    rcases hl : L.getLast? with _ | c0
    · exact absurd (List.getLast?_eq_none_iff.mp hl) hLne
    · refine ⟨c0, rfl, ?_⟩
      apply getLast?_rstrip_not_space ((splitNl code).getD (n.toNat - 1) []) c0
      rw [hL]
      exact hl
  have htail3 : (';' :: ' ' :: ' ' :: L.drop p) = [';', ' ', ' '] ++ L.drop p := rfl
  have hnewlast : (before ++ ';' :: ' ' :: ' ' :: L.drop p).getLast? = L.getLast? := by
    rw [htail3, ← List.append_assoc, getLast?_append_right _ _ hcomne,
      getLast?_drop_of_ne_nil L p hcomne]
  have hnoLnl : '\n' ∉ L := by
    rw [← hL]
    intro h
    exact no_newline_in_line code _ hkr (mem_of_mem_rstrip h)
  have hnewnl : '\n' ∉ before ++ ';' :: ' ' :: ' ' :: L.drop p := by
    intro hmem
    rcases List.mem_append.mp hmem with h | h
    · exact hnoLnl (hpre.subset h)
    · rcases List.mem_cons.mp h with h1 | h
      · exact absurd h1 (by decide)
      rcases List.mem_cons.mp h with h1 | h
      · exact absurd h1 (by decide)
      rcases List.mem_cons.mp h with h1 | h
      · exact absurd h1 (by decide)
      · exact hnoLnl (List.drop_subset p L h)
  have hsplit : splitNl (joinNl ((splitNl code).set (n.toNat - 1)
      (before ++ ';' :: ' ' :: ' ' :: L.drop p)))
      = (splitNl code).set (n.toNat - 1) (before ++ ';' :: ' ' :: ' ' :: L.drop p) :=
    splitNl_set_join _ _ _ (not_newline_mem_splitNl code) hnewnl (splitNl_ne_nil code)
  have hmarkAt : markerAt ((before ++ ';' :: ' ' :: ' ' :: L.drop p).drop (before.length + 3))
      = true := by
    have h1 : (before ++ ';' :: ' ' :: ' ' :: L.drop p).drop (before.length + 3)
        = L.drop p := by
      rw [List.drop_append_eq_append_drop, List.drop_eq_nil_of_le (by omega)]
      rw [show before.length + 3 - before.length = 3 from by omega]
      simp
    rw [h1]
    exact hmark
  have hminAt : ∀ i, i < before.length + 3 →
      markerAt ((before ++ ';' :: ' ' :: ' ' :: L.drop p).drop i) = false := by
    intro i hi
    by_cases hiB : i < before.length
    · have hdrop : (before ++ ';' :: ' ' :: ' ' :: L.drop p).drop i
          = before.drop i ++ ';' :: ' ' :: ' ' :: L.drop p := by
        rw [List.drop_append_eq_append_drop, show i - before.length = 0 from by omega,
          List.drop_zero]
      have hdropL : L.drop i = before.drop i ++ L.drop before.length := by
        conv_lhs => rw [← hLdecomp]
        rw [List.drop_append_eq_append_drop, show i - before.length = 0 from by omega,
          List.drop_zero]
      have hne2 : before.drop i ≠ [] := by
        intro h
        rw [List.drop_eq_nil_iff_le] at h
        omega
      have hfalse := hmin i (by omega)
      rcases hu : before.drop i with _ | ⟨a, u2⟩
      · exact absurd hu hne2
      rcases u2 with _ | ⟨b, u3⟩
      · rw [hdrop, hu]
        simp only [List.cons_append, List.nil_append]
        by_cases ha : '#' = a
        · exfalso
          rw [hdropL, hu] at hfalse
          simp only [List.cons_append, List.nil_append] at hfalse
          rw [← ha, markerAt_hash] at hfalse
          simp at hfalse
        · rw [Bool.eq_false_iff]
          intro htrue
          rcases (markerAt_two a ';' _).mp htrue with ⟨_, hx⟩ | ⟨_, hx⟩ | hx
          · exact absurd hx (by decide)
          · exact absurd hx (by decide)
          · exact ha hx
      · rw [hdrop, hu]
        rw [hdropL, hu] at hfalse
        simp only [List.cons_append] at hfalse ⊢
        rw [Bool.eq_false_iff] at hfalse ⊢
        intro htrue
        exact hfalse ((markerAt_two a b _).mpr ((markerAt_two a b _).mp htrue))
    · have hdrop : (before ++ ';' :: ' ' :: ' ' :: L.drop p).drop i
          = (';' :: ' ' :: ' ' :: L.drop p).drop (i - before.length) := by
        rw [List.drop_append_eq_append_drop, List.drop_eq_nil_of_le (by omega),
          List.nil_append]
      have hcases : i - before.length = 0 ∨ i - before.length = 1 ∨ i - before.length = 2 := by
        omega
      rw [hdrop]
      rcases hcases with h | h | h <;> rw [h] <;>
        simp only [List.drop_zero, List.drop_succ_cons]
      · exact markerAt_cons_false ';' _ (by decide) (by decide)
      · exact markerAt_cons_false ' ' _ (by decide) (by decide)
      · exact markerAt_cons_false ' ' _ (by decide) (by decide)
  have hscan2 : commentScan (before ++ ';' :: ' ' :: ' ' :: L.drop p)
      = some (before.length + 3) :=
    commentScan_of_marker _ _ hminAt hmarkAt
  have htake : (before ++ ';' :: ' ' :: ' ' :: L.drop p).take (before.length + 3)
      = before ++ [';', ' ', ' '] := by
    rw [List.take_append]
    rfl
  have hbefore2 : rstrip ((before ++ ';' :: ' ' :: ' ' :: L.drop p).take (before.length + 3))
      = before ++ [';'] := by
    rw [htake, rstrip_append_semi_sp]
  apply asl_result_of_comment _ n (before ++ ';' :: ' ' :: ' ' :: L.drop p)
    (before.length + 3) hn0
  · rw [hsplit, List.length_set]
    exact hrange
  · rw [hsplit, getD_set_self _ _ _ hkr]
    apply rstrip_eq_self_of_getLast _ c0
    · rw [hnewlast]
      exact hc0
    · exact hc0ns
  · rw [endsWithChar_congr _ L _ hnewlast, endsWithChar_congr _ L _ hnewlast,
      endsWithChar_congr _ L _ hnewlast]
    exact hends
  · exact hscan2
  · omega
  · rw [hbefore2]
    intro hcon
    exact hcon.2 (endsWithChar_iff _ _ |>.mpr (List.getLast?_concat before))

/-- C10: add_semicolon_at_line is idempotent (applying it twice with the
same arguments equals applying it once), and a None, zero, negative, or
past-the-end line number returns the text unchanged. -/
theorem add_semicolon_at_line_idem_oob (code : List Char) (lineNum : Option Int) :
    add_semicolon_at_line (add_semicolon_at_line code lineNum) lineNum
        = add_semicolon_at_line code lineNum
    ∧ (lineArgOutOfRange lineNum (splitNl code).length →
        add_semicolon_at_line code lineNum = code) := by
  cases lineNum with
  | none => exact ⟨rfl, fun _ => rfl⟩
  | some n =>
    by_cases hn0 : n = 0
    · have h0 : add_semicolon_at_line code (some n) = code := by
        simp [add_semicolon_at_line, hn0]
      constructor
      · rw [h0]
        exact h0
      · exact fun _ => h0
    · by_cases hrange : 0 < n ∧ n ≤ ((splitNl code).length : Int)
      · obtain ⟨hr1, hr2⟩ := hrange
        have hnoob : lineArgOutOfRange (some n) (splitNl code).length → False := by
          rintro (h | ⟨k, hk, hcase⟩)
          · exact Option.noConfusion h
          · injection hk with hk2
            subst hk2
            rcases hcase with h | h <;> omega
        refine ⟨?_, fun h => absurd h hnoob⟩
        have hkr : n.toNat - 1 < (splitNl code).length := by omega
        by_cases hends : (endsWithChar (rstrip ((splitNl code).getD (n.toNat - 1) [])) ';'
            || endsWithChar (rstrip ((splitNl code).getD (n.toNat - 1) [])) lbrace
            || endsWithChar (rstrip ((splitNl code).getD (n.toNat - 1) [])) rbrace) = true
        · have h1 : add_semicolon_at_line code (some n) = code :=
            asl_result_of_ends_any code n _ hn0 ⟨hr1, hr2⟩ rfl hends
          rw [h1]
          exact h1
        · have hendsf := Bool.eq_false_iff.mpr hends
          rcases hscan : commentScan (rstrip ((splitNl code).getD (n.toNat - 1) []))
            with _ | p
          · have h1 := asl_result_append code n _ hn0 ⟨hr1, hr2⟩ rfl hendsf (Or.inl hscan)
            rw [h1]
            exact asl_fix_append code n _ hn0 ⟨hr1, hr2⟩ hkr rfl
          · by_cases hp : 0 < p
            · by_cases hcond :
                  rstrip ((rstrip ((splitNl code).getD (n.toNat - 1) [])).take p) ≠ []
                  ∧ ¬ endsWithChar
                      (rstrip ((rstrip ((splitNl code).getD (n.toNat - 1) [])).take p)) ';'
                      = true
              · have h1 := asl_result_comment code n _ p hn0 ⟨hr1, hr2⟩ rfl hendsf hscan
                  hp hcond
                rw [h1]
                exact asl_fix_comment code n _ p hn0 ⟨hr1, hr2⟩ hkr rfl hendsf hscan hp
              · have h1 : add_semicolon_at_line code (some n) = code := by
                  simp only [add_semicolon_at_line]
                  rw [if_neg hn0, if_pos ⟨hr1, hr2⟩, hendsf]
                  simp only [Bool.false_eq_true, if_false]
                  rw [hscan]
                  simp only [if_pos hp]
                  rw [if_neg hcond, joinNl_splitNl]
                rw [h1]
                exact h1
            · have hp0 : p = 0 := by omega
              subst hp0
              have h1 := asl_result_append code n _ hn0 ⟨hr1, hr2⟩ rfl hendsf (Or.inr hscan)
              rw [h1]
              exact asl_fix_append code n _ hn0 ⟨hr1, hr2⟩ hkr rfl
      · have h1 : add_semicolon_at_line code (some n) = code := by
          simp only [add_semicolon_at_line]
          rw [if_neg hn0, if_neg hrange, joinNl_splitNl]
        exact ⟨by rw [h1]; exact h1, fun _ => h1⟩

/-- C10 witness: a negative line number leaves a concrete text unchanged,
and the transform at a valid line is idempotent on a concrete text. -/
theorem add_semicolon_at_line_idem_oob_witness :
    add_semicolon_at_line ("x = 1".toList) (some (-3)) = "x = 1".toList ∧
    add_semicolon_at_line (add_semicolon_at_line ("int a".toList) (some 1)) (some 1)
      = add_semicolon_at_line ("int a".toList) (some 1) :=
  ⟨(add_semicolon_at_line_idem_oob ("x = 1".toList) (some (-3))).2
      (Or.inr ⟨-3, rfl, Or.inl (by decide)⟩),
    (add_semicolon_at_line_idem_oob ("int a".toList) (some 1)).1⟩

/-- re.sub of the anchored pattern caret digits+ colon whitespace* applied to
old: strip one leading line-number prefix.  Greedy digit matching is
deterministic: a shorter digit run leaves a digit where the colon is
required. -/
def stripLineNum (s : List Char) : List Char :=
  if s.takeWhile isDigitChar = [] then s
  else
    match s.dropWhile isDigitChar with
    | ':' :: r => r.dropWhile isSpaceChar
    | _ => s

/-- re.sub removing every occurrence of digits+ colon whitespace* from new
(the source omits the caret for the new snippet, so all occurrences are
removed, resuming after each match and advancing one character after a
failed attempt).  Fuel: length + 1 suffices since every step consumes at
least one character. -/
def stripNumColAllFuel : Nat → List Char → List Char
  | 0, s => s
  | _ + 1, [] => []
  | fuel + 1, c :: rest =>
    if isDigitChar c then
      match (c :: rest).dropWhile isDigitChar with
      | ':' :: r => stripNumColAllFuel fuel (r.dropWhile isSpaceChar)
      | _ => c :: stripNumColAllFuel fuel rest
    else c :: stripNumColAllFuel fuel rest

/-- All line-number patterns removed from the new snippet. -/
def stripNumColAll (s : List Char) : List Char :=
  stripNumColAllFuel (s.length + 1) s

/-- Does the comment pattern backslash-s* // .* dollar match starting at the
head of s?  Without re.MULTILINE, dollar matches only at the end of the
string or just before a terminal newline, and dot stops at a newline;
greedy matching of this pattern never backtracks usefully. -/
def commentMatchAt (s : List Char) : Bool :=
  let r := s.dropWhile isSpaceChar
  if ['/', '/'].isPrefixOf r then
    match (r.drop 2).dropWhile (· != '\n') with
    | [] => true
    | ['\n'] => true
    | _ => false
  else false

/-- re.split(comment pattern, s)[0]: the text before the start of the
leftmost match, or all of s when there is none. -/
def beforeComment : List Char → List Char
  | [] => []
  | c :: rest =>
    if commentMatchAt (c :: rest) then []
    else c :: beforeComment rest

/-- Python str.split() with no arguments: the maximal runs of non-whitespace
characters (cur accumulates the current run in reverse). -/
def pySplitWsAux (cur : List Char) : List Char → List (List Char)
  | [] => if cur = [] then [] else [cur.reverse]
  | c :: rest =>
    if isSpaceChar c then
      if cur = [] then pySplitWsAux [] rest
      else cur.reverse :: pySplitWsAux [] rest
    else pySplitWsAux (c :: cur) rest

/-- Python str.split() with no arguments. -/
def pySplitWs (s : List Char) : List (List Char) :=
  pySplitWsAux [] s

/-- Python single-space .join(words). -/
def joinWithSpace : List (List Char) → List Char
  | [] => []
  | [w] => w
  | w :: ws => w ++ ' ' :: joinWithSpace ws

/-- Whitespace normalization used by the fuzzy tier: one space .join of
str.split(). -/
def normSpaces (s : List Char) : List Char :=
  joinWithSpace (pySplitWs s)

/-- Python str.find("//"): index of the first occurrence, none for -1. -/
def findSlashSlash : List Char → Option Nat
  | [] => none
  | c :: rest =>
    if ['/', '/'].isPrefixOf (c :: rest) then some 0
    else (findSlashSlash rest).map (· + 1)

/-- The structural fuzzy fix: append ch to the rstripped line, inserting it
before an inline // comment when the comment does not start the line. -/
def appendBeforeComment (line : List Char) (ch : Char) : List Char :=
  let stripped := rstrip line
  match findSlashSlash stripped with
  | some pos =>
    if 0 < pos then
      rstrip (stripped.take pos) ++ ch :: ' ' :: ' ' :: stripped.drop pos
    else stripped ++ [ch]
  | none => stripped ++ [ch]

/-- Comment-stripped tier scan: the index of the first line whose
comment-stripped, stripped text equals the candidate's. -/
def m2Scan (oldNc : List Char) : List (List Char) → Option Nat
  | [] => none
  | line :: ls =>
    if strip (beforeComment (strip line)) = oldNc then some 0
    else (m2Scan oldNc ls).map (· + 1)

/-- Fuzzy tier scan over the snapshot lines: on a whitespace-normalized
match, a semicolon edit applies only when the line does not already end in
a semicolon (otherwise scanning continues), and a parenthesis edit applies
unconditionally; the first applied edit wins. -/
def m3Scan (nOld newR oldR : List Char) : List (List Char) → Option (Nat × List Char)
  | [] => none
  | line :: ls =>
    if nOld ≠ [] ∧ containsSub (normSpaces (beforeComment line)) nOld then
      if containsSub newR [';'] ∧ ¬ containsSub oldR [';'] = true then
        if ¬ endsWithChar (rstrip line) ';' = true then
          some (0, appendBeforeComment line ';')
        else (m3Scan nOld newR oldR ls).map (fun pr => (pr.1 + 1, pr.2))
      else if containsSub newR [')'] ∧ ¬ containsSub oldR [')'] = true then
        some (0, appendBeforeComment line ')')
      else (m3Scan nOld newR oldR ls).map (fun pr => (pr.1 + 1, pr.2))
    else (m3Scan nOld newR oldR ls).map (fun pr => (pr.1 + 1, pr.2))

/-- One replacement step of apply_replacements (auto_fix_multilang.py:2966):
strip the line-number prefixes from the candidate, then try the exact
substring tier, then the comment-stripped line tier, then the
whitespace-normalized fuzzy tier.  A candidate dict is embedded as its
(old, new) pair. -/
def applyOne (code : List Char) (r : List Char × List Char) : List Char :=
  let old := stripLineNum r.1
  let new := stripNumColAll r.2
  if old = [] then code
  else if containsSub code old then replaceFirst old new code
  else
    let oldNc := strip (beforeComment (strip old))
    if oldNc ≠ [] ∧ containsSub code oldNc then
      match m2Scan oldNc (splitNl code) with
      | some i =>
        let line := (splitNl code).getD i []
        let indent := line.length - (lstrip line).length
        let newNc := strip (beforeComment (strip new))
        joinNl ((splitNl code).set i (List.replicate indent ' ' ++ newNc))
      | none => code
    else
      let nOld := if oldNc ≠ [] then normSpaces oldNc else normSpaces old
      match m3Scan nOld new old (splitNl code) with
      | some (i, nl) => joinNl ((splitNl code).set i nl)
      | none => code

/-- apply_replacements over a list of candidates, applied left to right. -/
def apply_replacements (code : List Char) (rs : List (List Char × List Char)) : List Char :=
  rs.foldl applyOne code

theorem containsSub_iff_isInfix (s pat : List Char) :
    containsSub s pat = true ↔ pat <:+: s := by
  induction s with
  | nil =>
    simp only [containsSub, List.isEmpty_iff]
    constructor
    · intro h; simp [h]
    · intro h; exact List.eq_nil_of_infix_nil h
  | cons c rest ih =>
    simp only [containsSub, Bool.or_eq_true, List.isPrefixOf_iff_prefix, ih,
      List.infix_cons_iff]

theorem replaceFirst_spec (old new s : List Char) (hne : old ≠ [])
    (hsub : containsSub s old = true) :
    ∃ pre post, s = pre ++ old ++ post
      ∧ replaceFirst old new s = pre ++ new ++ post
      ∧ ∀ i, i < pre.length → ¬ old <+: s.drop i := by
  induction s with
  | nil =>
    exfalso
    simp only [containsSub, List.isEmpty_iff] at hsub
    exact hne hsub
  | cons c rest ih =>
    by_cases hpre : old.isPrefixOf (c :: rest)
    · refine ⟨[], (c :: rest).drop old.length, ?_, ?_, ?_⟩
      · have h1 := List.prefix_iff_eq_append.mp (List.isPrefixOf_iff_prefix.mp hpre)
        simpa using h1.symm
      · rw [replaceFirst, if_pos ⟨hne, hpre⟩]
        simp
      · intro i hi
        exact absurd hi (by simp)
    · have hsub2 : containsSub rest old = true := by
        rcases (by simpa [containsSub] using hsub :
            old <+: (c :: rest) ∨ containsSub rest old = true) with h | h
        · exact absurd (List.isPrefixOf_iff_prefix.mpr h) hpre
        · exact h
      obtain ⟨pre, post, hdec, hrep, hmin⟩ := ih hsub2
      refine ⟨c :: pre, post, ?_, ?_, ?_⟩
      · rw [hdec]
        simp
      · rw [replaceFirst, if_neg (by intro h; exact hpre h.2), if_neg hne, hrep]
        simp
      · intro i hi
        cases i with
        | zero =>
          rw [List.drop_zero]
          intro h
          exact hpre (List.isPrefixOf_iff_prefix.mpr h)
        | succ j =>
          rw [List.drop_succ_cons]
          exact hmin j (by simpa using hi)

/-- C2 (amended): when old, after stripping a leading line-number prefix, is
non-empty and occurs in the text, the Applier replaces exactly the first
occurrence, the rest byte-identical; the inserted text is new after removing
every line-number pattern from it. -/
theorem apply_replacements_exact (text oldRaw newRaw : List Char)
    (h1 : stripLineNum oldRaw ≠ [])
    (h2 : containsSub text (stripLineNum oldRaw) = true) :
    ∃ pre post, text = pre ++ stripLineNum oldRaw ++ post
      ∧ apply_replacements text [(oldRaw, newRaw)] = pre ++ stripNumColAll newRaw ++ post
      ∧ ∀ i, i < pre.length → ¬ stripLineNum oldRaw <+: text.drop i := by
  have happ : apply_replacements text [(oldRaw, newRaw)]
      = replaceFirst (stripLineNum oldRaw) (stripNumColAll newRaw) text := by
    show applyOne text (oldRaw, newRaw) = _
    unfold applyOne
    rw [if_neg h1]
    simp only [h2, if_true]
  obtain ⟨pre, post, hdec, hrep, hmin⟩ :=
    replaceFirst_spec (stripLineNum oldRaw) (stripNumColAll newRaw) text h1 h2
  exact ⟨pre, post, hdec, by rw [happ, hrep], hmin⟩

/-- C2 witness: a concrete candidate with a line-number prefix on old. -/
theorem apply_replacements_exact_witness :
    ∃ pre post, "ab".toList = pre ++ stripLineNum ("1: a".toList) ++ post
      ∧ apply_replacements ("ab".toList) [("1: a".toList, "c".toList)]
          = pre ++ stripNumColAll ("c".toList) ++ post
      ∧ ∀ i, i < pre.length → ¬ stripLineNum ("1: a".toList) <+: ("ab".toList).drop i :=
  apply_replacements_exact ("ab".toList) ("1: a".toList) ("c".toList)
    (by decide) (by decide)

/-- C2 counterexample: with new = "2: b", the Applier inserts "b", not the
verbatim new, so the replaced region is not the candidate's new snippet. -/
theorem apply_replacements_exact_cex :
    apply_replacements ("a".toList) [("a".toList, "2: b".toList)] = "b".toList
      ∧ "b".toList ≠ "2: b".toList := by
  constructor
  · decide
  · decide

theorem beforeComment_isPrefix (s : List Char) : beforeComment s <+: s := by
  induction s with
  | nil => simp [beforeComment]
  | cons c rest ih =>
    rw [beforeComment]
    split
    · exact List.nil_prefix
    · exact List.cons_prefix_cons.mpr ⟨rfl, ih⟩

theorem strip_isInfix (s : List Char) : strip s <:+: s :=
  ((rstrip_isPrefix (lstrip s)).isInfix).trans ((List.dropWhile_suffix _).isInfix)

theorem lineNc_isInfix (line : List Char) :
    strip (beforeComment (strip line)) <:+: line :=
  (strip_isInfix _).trans (((beforeComment_isPrefix _).isInfix).trans (strip_isInfix line))

theorem mem_joinNl_isInfix (l : List Char) (ls : List (List Char)) (h : l ∈ ls) :
    l <:+: joinNl ls := by
  induction ls with
  | nil => simp at h
  | cons m ms ih =>
    rcases List.mem_cons.mp h with h1 | h1
    · subst h1
      cases ms with
      | nil => simp [joinNl]
      | cons a as =>
        rw [joinNl_cons _ _ (by simp)]
        exact (List.prefix_append _ _).isInfix
    · cases ms with
      | nil => simp at h1
      | cons a as =>
        rw [joinNl_cons _ _ (by simp)]
        refine (ih h1).trans (List.IsSuffix.isInfix ?_)
        exact (List.suffix_cons '\n' _).trans (List.suffix_append _ _)

theorem m2Scan_some (oldNc : List Char) (ls : List (List Char)) :
    ∀ i, m2Scan oldNc ls = some i →
      i < ls.length ∧ strip (beforeComment (strip (ls.getD i []))) = oldNc := by
  induction ls with
  | nil => intro i h; simp [m2Scan] at h
  | cons line ls2 ih =>
    intro i h
    rw [m2Scan] at h
    split at h
    · rename_i heq
      have h0 : i = 0 := by simpa using h.symm
      subst h0
      exact ⟨by simp, by simpa using heq⟩
    · rcases Option.map_eq_some'.mp h with ⟨j, hj, hji⟩
      rcases ih j hj with ⟨hj1, hj2⟩
      subst hji
      refine ⟨by simpa using hj1, ?_⟩
      simpa [List.getD] using hj2

/-- C5 (amended): when old is not a verbatim substring but its
comment-stripped form equals the comment-stripped form of some line, the
whole first matching line is replaced by spaces equal in number to the
line's leading-whitespace count followed by new's comment-stripped code
portion; the line's original trailing comment is not kept. -/
theorem apply_replacements_comment_tier (text oldRaw newRaw : List Char) (i : Nat)
    (h1 : stripLineNum oldRaw ≠ [])
    (h2 : containsSub text (stripLineNum oldRaw) = false)
    (h3 : strip (beforeComment (strip (stripLineNum oldRaw))) ≠ [])
    (h4 : m2Scan (strip (beforeComment (strip (stripLineNum oldRaw)))) (splitNl text)
        = some i) :
    apply_replacements text [(oldRaw, newRaw)]
      = joinNl ((splitNl text).set i
          (List.replicate
              (((splitNl text).getD i []).length
                - (lstrip ((splitNl text).getD i [])).length) ' '
            ++ strip (beforeComment (strip (stripNumColAll newRaw))))) := by
  have hcs : containsSub text (strip (beforeComment (strip (stripLineNum oldRaw))))
      = true := by
    obtain ⟨hilen, heq⟩ := m2Scan_some _ _ i h4
    apply (containsSub_iff_isInfix _ _).mpr
    rw [← heq]
    have hmem : (splitNl text).getD i [] ∈ splitNl text := by
      rw [List.getD_eq_getElem _ _ hilen]
      exact List.getElem_mem hilen
    have hinf := (lineNc_isInfix ((splitNl text).getD i [])).trans
      (mem_joinNl_isInfix _ _ hmem)
    rwa [joinNl_splitNl] at hinf
  show applyOne text (oldRaw, newRaw) = _
  unfold applyOne
  rw [if_neg h1]
  simp only [h2, Bool.false_eq_true, if_false]
  rw [if_pos ⟨h3, hcs⟩, h4]

/-- C5 witness: the comment-stripped tier fires on a concrete line. -/
theorem apply_replacements_comment_tier_witness :
    apply_replacements ("  x = 1 // note".toList)
        [("x = 1 // c".toList, "x = 2 // c".toList)]
      = joinNl ((splitNl ("  x = 1 // note".toList)).set 0
          (List.replicate
              (((splitNl ("  x = 1 // note".toList)).getD 0 []).length
                - (lstrip ((splitNl ("  x = 1 // note".toList)).getD 0 [])).length) ' '
            ++ strip (beforeComment (strip (stripNumColAll ("x = 2 // c".toList)))))) :=
  apply_replacements_comment_tier ("  x = 1 // note".toList) ("x = 1 // c".toList)
    ("x = 2 // c".toList) 0 (by decide) (by decide) (by decide) (by decide)

/-- C5 counterexample: the matched line's inline comment is dropped, so the
result does not preserve the original trailing comment. -/
theorem apply_replacements_comment_cex :
    apply_replacements ("  a = 1 // keep".toList)
        [("a = 1 // c".toList, "a = 2 // c".toList)] = "  a = 2".toList
      ∧ "  a = 2".toList ≠ "  a = 2 // keep".toList := by
  constructor
  · decide
  · decide

/-- The language identifiers the validator distinguishes; every other value
of the Python lang string behaves like other. -/
inductive Lang
  | python
  | java
  | c
  | cpp
  | other
deriving DecidableEq

/-- Structured validator rejection reasons.  The source formats reasons as
strings; safe_apply_fix recognizes import truncation by a substring test on
the message and re-parses the two module paths from it with a regex on
non-whitespace runs.  Module paths captured by the import regexes are
nonempty and whitespace-free, so that round trip recovers exactly the
(full, truncated) pair carried here, and no other message format contains
the truncation marker text (identifiers are ASCII word characters and the
marker is not).  The structured reasons therefore carry the same
information as the formatted strings. -/
inductive VReason
  | lengthChanged (origLines fixedLines : Nat)
  | tooManyIdents (ids : List (List Char))
  | unbalanced (family opens closes : Nat)
  | criticalRemoved (patIdx : Nat)
  | importTruncated (full trunc : List Char)
deriving DecidableEq

/-- Maximal word-character runs of s, accumulated in reverse in cur.  The
identifier regex has word boundaries on both sides, so findall returns
exactly the maximal runs; a run starting with a digit has no boundary
inside it and is skipped entirely by the filter below. -/
def wordRunsAux (cur : List Char) : List Char → List (List Char)
  | [] => if cur = [] then [] else [cur.reverse]
  | c :: rest =>
    if isWordChar c then wordRunsAux (c :: cur) rest
    else if cur = [] then wordRunsAux [] rest
    else cur.reverse :: wordRunsAux [] rest

/-- re.findall of the identifier pattern: maximal word runs that start with
a letter or underscore. -/
def pyIdentifiers (s : List Char) : List (List Char) :=
  (wordRunsAux [] s).filter (fun r =>
    match r with
    | c :: _ => isIdentStart c
    | [] => false)

/-- The fixed keyword set filtered out of newly introduced identifiers. -/
def keywordList : List (List Char) :=
  (["if", "else", "for", "while", "return", "class", "def", "try", "except",
    "finally", "import", "from", "as", "in", "not", "and", "or", "True", "False",
    "None", "public", "private", "static", "void", "int", "string", "float",
    "double", "bool", "boolean", "char", "const", "auto", "include", "using",
    "namespace", "std", "new", "delete", "virtual", "override"]).map String.toList

/-- The newly introduced identifiers: the identifier set of the fixed text
minus that of the original minus the keywords (Python set difference; the
embedding lists them in first-occurrence order, Python set order is
unspecified). -/
def addedIdents (origCode fixedCode : List Char) : List (List Char) :=
  ((pyIdentifiers fixedCode).dedup.filter (fun x =>
    x ∉ pyIdentifiers origCode)).filter (fun x => x ∉ keywordList)

/-- Token of a critical-declaration regex: a literal, one-or-more
whitespace characters, or one-or-more word characters. -/
inductive PatTok
  | lit (l : List Char)
  | ws
  | word

/-- Greedy match of a token sequence at the head of s, returning the number
of characters consumed.  For the patterns used here greedy matching never
backtracks: every whitespace or word run is followed by a literal starting
with a character outside its class, or ends the pattern. -/
def tryPat : List PatTok → List Char → Option Nat
  | [], _ => some 0
  | PatTok.lit l :: ts, s =>
    if l.isPrefixOf s then (tryPat ts (s.drop l.length)).map (· + l.length) else none
  | PatTok.ws :: ts, s =>
    let w := s.takeWhile isSpaceChar
    if w = [] then none else (tryPat ts (s.drop w.length)).map (· + w.length)
  | PatTok.word :: ts, s =>
    let w := s.takeWhile isWordChar
    if w = [] then none else (tryPat ts (s.drop w.length)).map (· + w.length)

/-- re.findall count: non-overlapping leftmost matches, resuming past each
match (one character ahead for an empty match, as re does) and advancing
one character after a failed attempt.  Fuel: length + 1 suffices. -/
def countPatFuel (p : List PatTok) : Nat → List Char → Nat
  | 0, _ => 0
  | _ + 1, [] => if (tryPat p []).isSome then 1 else 0
  | fuel + 1, c :: rest =>
    match tryPat p (c :: rest) with
    | some k => 1 + countPatFuel p fuel ((c :: rest).drop (max k 1))
    | none => countPatFuel p fuel rest

/-- re.findall count over a whole text. -/
def countPat (p : List PatTok) (s : List Char) : Nat :=
  countPatFuel p (s.length + 1) s

/-- The per-language critical declaration patterns, in source order. -/
def criticalPatterns (lang : Lang) : List (List PatTok) :=
  match lang with
  | Lang.python =>
      [[PatTok.lit ("def".toList), PatTok.ws, PatTok.word],
       [PatTok.lit ("class".toList), PatTok.ws, PatTok.word],
       [PatTok.lit ("import".toList), PatTok.ws, PatTok.word]]
  | Lang.java =>
      [[PatTok.lit ("public".toList), PatTok.ws, PatTok.lit ("class".toList)],
       [PatTok.lit ("public".toList), PatTok.ws, PatTok.lit ("static".toList),
        PatTok.ws, PatTok.lit ("void".toList), PatTok.ws, PatTok.lit ("main".toList)]]
  | Lang.c =>
      [[PatTok.lit ("int".toList), PatTok.ws, PatTok.lit ("main".toList)],
       [PatTok.lit ("#include".toList)]]
  | Lang.cpp =>
      [[PatTok.lit ("int".toList), PatTok.ws, PatTok.lit ("main".toList)],
       [PatTok.lit ("#include".toList)],
       [PatTok.lit ("class".toList), PatTok.ws, PatTok.word]]
  | Lang.other => []

/-- Greedy deterministic match of the from-import pattern at the head of s,
returning the captured module path and the match length.  The module run is
maximal: a shorter run would leave a word-or-dot character where whitespace
is required, and a shorter whitespace run would leave whitespace where a
letter is required, so greedy matching is the regex result. -/
def tryFromImport (s : List Char) : Option (List Char × Nat) :=
  if ("from".toList).isPrefixOf s then
    let r1 := s.drop 4
    let w1 := r1.takeWhile isSpaceChar
    if w1 = [] then none
    else
      let r2 := r1.drop w1.length
      let m := r2.takeWhile isDotWord
      if m = [] then none
      else
        let r3 := r2.drop m.length
        let w2 := r3.takeWhile isSpaceChar
        if w2 = [] then none
        else
          let r4 := r3.drop w2.length
          if ("import".toList).isPrefixOf r4 then
            some (m, 4 + w1.length + m.length + w2.length + 6)
          else none
  else none

/-- finditer for the from-import pattern: leftmost non-overlapping matches,
resuming after each match.  Fuel: length + 1. -/
def scanFromImportsFuel : Nat → List Char → List (List Char)
  | 0, _ => []
  | _ + 1, [] => []
  | fuel + 1, c :: rest =>
    match tryFromImport (c :: rest) with
    | some (m, k) => m :: scanFromImportsFuel fuel ((c :: rest).drop k)
    | none => scanFromImportsFuel fuel rest

/-- Greedy deterministic match of import whitespace module at the head. -/
def tryImportModule (s : List Char) : Option (List Char × Nat) :=
  if ("import".toList).isPrefixOf s then
    let r1 := s.drop 6
    let w1 := r1.takeWhile isSpaceChar
    if w1 = [] then none
    else
      let r2 := r1.drop w1.length
      let m := r2.takeWhile isDotWord
      if m = [] then none else some (m, 6 + w1.length + m.length)
  else none

/-- finditer of the caret-anchored import pattern under re.MULTILINE: a
match may start only at the start of the string or right after a newline.
A match ends in a word-or-dot character, never a newline, so scanning
resumes in mid-line state. -/
def scanLineImportsFuel : Nat → Bool → List Char → List (List Char)
  | 0, _, _ => []
  | _ + 1, _, [] => []
  | fuel + 1, atStart, c :: rest =>
    if atStart then
      match tryImportModule (c :: rest) with
      | some (m, k) => m :: scanLineImportsFuel fuel false ((c :: rest).drop k)
      | none => scanLineImportsFuel fuel (c = '\n') rest
    else scanLineImportsFuel fuel (c = '\n') rest

/-- Greedy deterministic match of import whitespace module whitespace as. -/
def tryImportAs (s : List Char) : Option (List Char × Nat) :=
  if ("import".toList).isPrefixOf s then
    let r1 := s.drop 6
    let w1 := r1.takeWhile isSpaceChar
    if w1 = [] then none
    else
      let r2 := r1.drop w1.length
      let m := r2.takeWhile isDotWord
      if m = [] then none
      else
        let r3 := r2.drop m.length
        let w2 := r3.takeWhile isSpaceChar
        if w2 = [] then none
        else
          let r4 := r3.drop w2.length
          if ("as".toList).isPrefixOf r4 then
            some (m, 6 + w1.length + m.length + w2.length + 2)
          else none
  else none

/-- finditer for the import-as pattern. -/
def scanImportAsFuel : Nat → List Char → List (List Char)
  | 0, _ => []
  | _ + 1, [] => []
  | fuel + 1, c :: rest =>
    match tryImportAs (c :: rest) with
    | some (m, k) => m :: scanImportAsFuel fuel ((c :: rest).drop k)
    | none => scanImportAsFuel fuel rest

/-- extract_python_imports (auto_fix_multilang.py:3166): the set of module
paths found by the three import regexes.  The Python set is embedded as a
deduplicated list in extraction order; set iteration order is unspecified
in the source, and only membership and the existence of an offending pair
are used in checks. -/
def extract_python_imports (code : List Char) : List (List Char) :=
  (scanFromImportsFuel (code.length + 1) code
    ++ scanLineImportsFuel (code.length + 1) true code
    ++ scanImportAsFuel (code.length + 1) code).dedup

/-- Greedy deterministic match of the Java import pattern with its
semicolon. -/
def tryJavaImport (s : List Char) : Option (List Char × Nat) :=
  if ("import".toList).isPrefixOf s then
    let r1 := s.drop 6
    let w1 := r1.takeWhile isSpaceChar
    if w1 = [] then none
    else
      let r2 := r1.drop w1.length
      let m := r2.takeWhile isDotWord
      if m = [] then none
      else
        match r2.drop m.length with
        | ';' :: _ => some (m, 6 + w1.length + m.length + 1)
        | _ => none
  else none

/-- findall for the Java import pattern. -/
def scanJavaImportsFuel : Nat → List Char → List (List Char)
  | 0, _ => []
  | _ + 1, [] => []
  | fuel + 1, c :: rest =>
    match tryJavaImport (c :: rest) with
    | some (m, k) => m :: scanJavaImportsFuel fuel ((c :: rest).drop k)
    | none => scanJavaImportsFuel fuel rest

/-- The standard-library module prefixes the missing-module check skips. -/
def stdlibNames : List (List Char) :=
  (["os", "sys", "typing", "re", "json", "time"]).map String.toList

/-- o.split(dot)[0]. -/
def firstDotComp (s : List Char) : List Char :=
  s.takeWhile (· != '.')

/-- o.split(underscore)[0] when an underscore occurs in o, else
o.split(dot)[0]. -/
def baseNameOf (s : List Char) : List Char :=
  if containsSub s ['_'] then s.takeWhile (· != '_') else s.takeWhile (· != '.')

/-- The first (original, fixed) pair where the original module extends the
fixed one by an underscore or dot segment (the truncation test of the first
loop of validate_import_paths). -/
def findTruncPair (origs fixeds : List (List Char)) :
    Option (List Char × List Char) :=
  match origs with
  | [] => none
  | o :: os =>
    match fixeds.find? (fun f =>
        (f ++ ['_']).isPrefixOf o || (f ++ ['.']).isPrefixOf o) with
    | some f => some (o, f)
    | none => findTruncPair os fixeds

/-- The second loop of validate_import_paths: a non-standard-library module
that disappeared while its base name (before the first underscore, else
before the first dot) is present in the fixed set. -/
def findMissingTrunc (origs fixeds : List (List Char)) :
    Option (List Char × List Char) :=
  match origs with
  | [] => none
  | o :: os =>
    if firstDotComp o ∈ stdlibNames then findMissingTrunc os fixeds
    else if o ∉ fixeds ∧ baseNameOf o ∈ fixeds then some (o, baseNameOf o)
    else findMissingTrunc os fixeds

/-- The Java truncation test: an original import that extends a fixed one
past a dot. -/
def findTruncPairJava (origs fixeds : List (List Char)) :
    Option (List Char × List Char) :=
  match origs with
  | [] => none
  | o :: os =>
    match fixeds.find? (fun f => (f ++ ['.']).isPrefixOf o && o ≠ f) with
    | some f => some (o, f)
    | none => findTruncPairJava os fixeds

/-- validate_import_paths (auto_fix_multilang.py:3121). -/
def validate_import_paths (origCode fixedCode : List Char) (lang : Lang) :
    Bool × Option VReason :=
  match lang with
  | Lang.python =>
    let origs := extract_python_imports origCode
    let fixeds := extract_python_imports fixedCode
    match findTruncPair origs fixeds with
    | some (o, f) => (false, some (VReason.importTruncated o f))
    | none =>
      match findMissingTrunc origs fixeds with
      | some (o, b) => (false, some (VReason.importTruncated o b))
      | none => (true, none)
  | Lang.java =>
    let origs := (scanJavaImportsFuel (origCode.length + 1) origCode).dedup
    let fixeds := (scanJavaImportsFuel (fixedCode.length + 1) fixedCode).dedup
    match findTruncPairJava origs fixeds with
    | some (o, f) => (false, some (VReason.importTruncated o f))
    | none => (true, none)
  | _ => (true, none)

/-- The bracket-family balance check of validate_fix_semantics, iterating
the families in the dictionary insertion order paren, bracket, brace: a
family balanced before the patch and unbalanced after rejects. -/
def checkBrackets (origCode fixedCode : List Char) : Option VReason :=
  if fixedCode.count '(' ≠ fixedCode.count ')'
      ∧ origCode.count '(' = origCode.count ')' then
    some (VReason.unbalanced 0 (fixedCode.count '(') (fixedCode.count ')'))
  else if fixedCode.count '[' ≠ fixedCode.count ']'
      ∧ origCode.count '[' = origCode.count ']' then
    some (VReason.unbalanced 1 (fixedCode.count '[') (fixedCode.count ']'))
  else if fixedCode.count lbrace ≠ fixedCode.count rbrace
      ∧ origCode.count lbrace = origCode.count rbrace then
    some (VReason.unbalanced 2 (fixedCode.count lbrace) (fixedCode.count rbrace))
  else none

/-- The critical-declaration check: the first pattern whose match count
decreased rejects. -/
def checkCritical (origCode fixedCode : List Char) (lang : Lang) : Option VReason :=
  match (criticalPatterns lang).findIdx? (fun p =>
      countPat p fixedCode < countPat p origCode) with
  | some i => some (VReason.criticalRemoved i)
  | none => none

/-- validate_fix_semantics (auto_fix_multilang.py:3045).  The float test
abs(delta) > lines * 0.5 is exact for these integer operands (0.5 and the
halving are exact in binary floating point), so it equals
2 * abs(delta) > lines on integers. -/
def validate_fix_semantics (origCode fixedCode : List Char) (lang : Lang) :
    Bool × Option VReason :=
  if fixedCode = [] ∨ fixedCode = origCode then (true, none)
  else
    let origLines := (splitNl origCode).length
    let fixedLines := (splitNl fixedCode).length
    if origLines < 2 * ((fixedLines : Int) - (origLines : Int)).natAbs then
      (false, some (VReason.lengthChanged origLines fixedLines))
    else if 5 < (addedIdents origCode fixedCode).length then
      (false, some (VReason.tooManyIdents ((addedIdents origCode fixedCode).take 5)))
    else
      match checkBrackets origCode fixedCode with
      | some r => (false, some r)
      | none =>
        match checkCritical origCode fixedCode lang with
        | some r => (false, some r)
        | none => validate_import_paths origCode fixedCode lang

/-- fix_python_import_truncated (auto_fix_multilang.py:1548): on every line
importing the truncated name, restore the full module path (both the from
form with a trailing space and the bare import form). -/
def fix_python_import_truncated (code truncMod fullMod : List Char) : List Char :=
  joinNl ((splitNl code).map (fun line =>
    if containsSub line ("from ".toList ++ truncMod ++ [' '])
        ∨ containsSub line ("import ".toList ++ truncMod) then
      replaceAll ("import ".toList ++ truncMod) ("import ".toList ++ fullMod)
        (replaceAll ("from ".toList ++ truncMod ++ [' '])
          ("from ".toList ++ fullMod ++ [' ']) line)
    else line))

/-- safe_apply_fix (auto_fix_multilang.py:3188): validate, and on an
import-truncation rejection perform exactly one mechanical recovery pass
and re-validate exactly once; in every other failing case return the
original text.  The source recognizes the truncation reason by a substring
test on the message and re-parses the (full, truncated) pair from it (see
VReason). -/
def safe_apply_fix (origCode fixedCode : List Char) (lang : Lang) :
    List Char × Bool :=
  match validate_fix_semantics origCode fixedCode lang with
  | (true, _) => (fixedCode, true)
  | (false, some (VReason.importTruncated full trunc)) =>
    let recovered := fix_python_import_truncated fixedCode trunc full
    if recovered ≠ fixedCode then
      if (validate_fix_semantics origCode recovered lang).1 then (recovered, true)
      else (origCode, false)
    else (origCode, false)
  | (false, _) => (origCode, false)

/-- The acceptance step of the runtime phase of auto_fix
(auto_fix_multilang.py:3345-3349): the applier output replaces the text
whenever it differs from it, with no validator call; the boolean records
whether the loop continues with the new text. -/
def phase3_apply (code : List Char) (rs : List (List Char × List Char)) :
    List Char × Bool :=
  let newCode := apply_replacements code rs
  if newCode = code then (code, false) else (newCode, true)

theorem checkBrackets_none_balance (o f : List Char)
    (h : checkBrackets o f = none) :
    (o.count '(' = o.count ')' → f.count '(' = f.count ')')
    ∧ (o.count '[' = o.count ']' → f.count '[' = f.count ']')
    ∧ (o.count lbrace = o.count rbrace → f.count lbrace = f.count rbrace) := by
  by_cases c1 : f.count '(' ≠ f.count ')' ∧ o.count '(' = o.count ')'
  · rw [checkBrackets, if_pos c1] at h
    exact Option.noConfusion h
  by_cases c2 : f.count '[' ≠ f.count ']' ∧ o.count '[' = o.count ']'
  · rw [checkBrackets, if_neg c1, if_pos c2] at h
    exact Option.noConfusion h
  by_cases c3 : f.count lbrace ≠ f.count rbrace ∧ o.count lbrace = o.count rbrace
  · rw [checkBrackets, if_neg c1, if_neg c2, if_pos c3] at h
    exact Option.noConfusion h
  refine ⟨?_, ?_, ?_⟩ <;> intro ho
  · by_contra hf
    exact c1 ⟨hf, ho⟩
  · by_contra hf
    exact c2 ⟨hf, ho⟩
  · by_contra hf
    exact c3 ⟨hf, ho⟩

theorem validate_true_checkBrackets (o f : List Char) (lang : Lang)
    (hne : ¬ (f = [] ∨ f = o))
    (h : (validate_fix_semantics o f lang).1 = true) :
    checkBrackets o f = none := by
  unfold validate_fix_semantics at h
  rw [if_neg hne] at h
  simp only [] at h
  split at h
  · simp at h
  split at h
  · simp at h
  rcases hcb : checkBrackets o f with _ | r
  · rfl
  · rw [hcb] at h
    simp at h

/-- C3 (amended): every bracket family balanced in the original text is
still balanced in a validator-accepted patched text; the validator does not
force the post-patch counts to equal the pre-patch counts. -/
theorem validate_preserves_balance (origCode fixedCode : List Char) (lang : Lang)
    (h : (validate_fix_semantics origCode fixedCode lang).1 = true) :
    (origCode.count '(' = origCode.count ')' →
        fixedCode.count '(' = fixedCode.count ')')
    ∧ (origCode.count '[' = origCode.count ']' →
        fixedCode.count '[' = fixedCode.count ']')
    ∧ (origCode.count lbrace = origCode.count rbrace →
        fixedCode.count lbrace = fixedCode.count rbrace) := by
  by_cases hne : fixedCode = [] ∨ fixedCode = origCode
  · rcases hne with h0 | h0
    · subst h0
      exact ⟨fun _ => rfl, fun _ => rfl, fun _ => rfl⟩
    · subst h0
      exact ⟨id, id, id⟩
  · exact checkBrackets_none_balance _ _ (validate_true_checkBrackets _ _ lang hne h)

/-- C3 witness: an accepted patch of a balanced text keeps every family
balanced on a concrete input. -/
theorem validate_preserves_balance_witness :
    (("()".toList).count '(' = ("()".toList).count ')' →
        ("(())".toList).count '(' = ("(())".toList).count ')')
    ∧ (("()".toList).count '[' = ("()".toList).count ']' →
        ("(())".toList).count '[' = ("(())".toList).count ']')
    ∧ (("()".toList).count lbrace = ("()".toList).count rbrace →
        ("(())".toList).count lbrace = ("(())".toList).count rbrace) :=
  validate_preserves_balance ("()".toList) ("(())".toList) Lang.python (by decide)

/-- C3 counterexample: the validator accepts a patch that changes the
parenthesis count of a balanced text, so post-patch counts can differ from
the pre-patch counts of that family. -/
theorem validate_counts_cex :
    (validate_fix_semantics ("()".toList) ("(())".toList) Lang.python).1 = true
    ∧ ("()".toList).count '(' = ("()".toList).count ')'
    ∧ ("(())".toList).count '(' ≠ ("()".toList).count '(' := by
  refine ⟨by decide, by decide, by decide⟩

/-- C4: whenever the validator rejects a Python patch with the
import-truncation reason carrying the full and truncated module paths, the
controller performs exactly one mechanical recovery pass (restoring the
full path) and re-validates exactly once, accepting the recovered text when
that single re-validation passes and otherwise returning the original text
unchanged. -/
theorem safe_apply_fix_truncation (origCode fixedCode full trunc : List Char)
    (h : validate_fix_semantics origCode fixedCode Lang.python
        = (false, some (VReason.importTruncated full trunc))) :
    safe_apply_fix origCode fixedCode Lang.python
      = (if fix_python_import_truncated fixedCode trunc full ≠ fixedCode
            ∧ (validate_fix_semantics origCode
                (fix_python_import_truncated fixedCode trunc full) Lang.python).1
              = true
          then (fix_python_import_truncated fixedCode trunc full, true)
          else (origCode, false)) := by
  unfold safe_apply_fix
  rw [h]
  simp only []
  by_cases h1 : fix_python_import_truncated fixedCode trunc full ≠ fixedCode
  · rw [if_pos h1]
    by_cases h2 : (validate_fix_semantics origCode
        (fix_python_import_truncated fixedCode trunc full) Lang.python).1 = true
    · rw [if_pos h2, if_pos ⟨h1, h2⟩]
    · rw [if_neg h2, if_neg (fun hc => h2 hc.2)]
  · rw [if_neg h1, if_neg (fun hc => h1 hc.1)]

/-- C4 witness: the spec scenario: the patch shortened pkgname.modulename
to pkgname; the validator flags import truncation, the single recovery pass
restores the longer path verbatim (yielding the original text), and the one
re-validation accepts it. -/
theorem safe_apply_fix_truncation_witness :
    validate_fix_semantics ("from pkgname.modulename import x\nprint(x)".toList)
        ("from pkgname import x\nprint(x)".toList) Lang.python
      = (false, some (VReason.importTruncated ("pkgname.modulename".toList)
          ("pkgname".toList)))
    ∧ safe_apply_fix ("from pkgname.modulename import x\nprint(x)".toList)
        ("from pkgname import x\nprint(x)".toList) Lang.python
      = ("from pkgname.modulename import x\nprint(x)".toList, true) := by
  refine ⟨by decide, ?_⟩
  rw [safe_apply_fix_truncation ("from pkgname.modulename import x\nprint(x)".toList)
    ("from pkgname import x\nprint(x)".toList) ("pkgname.modulename".toList)
    ("pkgname".toList) (by decide)]
  decide

/-- C1: the runtime repair loop accepts the applier output with no
validator call: a concrete candidate whose applied result the Safety
Validator rejects (it unbalances the parentheses of a balanced file) still
replaces the text for that iteration. -/
theorem phase3_accepts_validator_rejected :
    phase3_apply ("x = 1".toList) [("x = 1".toList, "x = (1".toList)]
        = ("x = (1".toList, true)
    ∧ (validate_fix_semantics ("x = 1".toList) ("x = (1".toList) Lang.python).1
        = false := by
  refine ⟨by decide, by decide⟩

section TopoSort

variable {α : Type} [DecidableEq α]

/-- The node set of a dependency graph, embedded as an association list in
dictionary insertion order (a Python dict has unique keys; theorems
hypothesize that). -/
def keys (g : List (α × List α)) : List α :=
  g.map Prod.fst

/-- graph[node]: the dependency list of a node (empty for a missing key;
the sort only queries present keys). -/
def depsOf (g : List (α × List α)) (n : α) : List α :=
  match g.find? (fun p => decide (p.1 = n)) with
  | some p => p.2
  | none => []

/-- The priority of a node: the length of its reverse-dependency list, the
number of dependency-list entries across the graph that name it (appended
once per occurrence in the source). -/
def priority (g : List (α × List α)) (n : α) : Nat :=
  (g.map (fun p => p.2.count n)).sum

/-- Stable insertion before the first element of strictly smaller priority:
with the insert coming from earlier in the original order, this is the
element order of Python's stable sort with key=priority and reverse=True. -/
def insertDesc (pr : α → Nat) (a : α) : List α → List α
  | [] => [a]
  | b :: bs => if pr b ≤ pr a then a :: b :: bs else b :: insertDesc pr a bs

/-- Stable descending sort by priority (insertion sort; extensionally equal
to any stable sort, hence to the sorted() call of the source). -/
def sortDesc (pr : α → Nat) : List α → List α
  | [] => []
  | a :: rest => insertDesc pr a (sortDesc pr rest)

/-- The remaining (unvisited) nodes in dictionary order. -/
def remainingNodes (g : List (α × List α)) (visited : List α) : List α :=
  (keys g).filter (fun n => decide (n ∉ visited))

/-- The Kahn candidates: unvisited nodes with no unvisited dependency, in
dictionary order. -/
def kahnCandidates (g : List (α × List α)) (visited : List α) : List α :=
  (keys g).filter (fun n => decide (n ∉ visited ∧ ∀ d ∈ depsOf g n, d ∈ visited))

/-- One selection step of topological_sort: the Kahn candidates, or on a
cycle the single highest-priority remaining node, then the highest-priority
candidate first (the second sort of the source is the identity on that
singleton). -/
def pickNext (g : List (α × List α)) (visited : List α) : Option α :=
  let cands := kahnCandidates g visited
  let cands2 := if cands = [] then (sortDesc (priority g) (remainingNodes g visited)).take 1
    else cands
  (sortDesc (priority g) cands2).head?

/-- The selection loop of topological_sort; the visited set is the set of
result entries.  The while loop runs exactly while
len(result) < len(graph), appending one node per iteration, so g.length
iterations of fuel reproduce it exactly. -/
def topoLoopFuel (g : List (α × List α)) : Nat → List α → List α
  | 0, result => result
  | fuel + 1, result =>
    if result.length < g.length then
      match pickNext g result with
      | some n => topoLoopFuel g fuel (result ++ [n])
      | none => result
    else result

/-- topological_sort (auto_fix_multilang.py:3427). -/
def topological_sort (g : List (α × List α)) : List α :=
  topoLoopFuel g g.length []

/-- Acyclicity of the dependency graph in its standard finite
characterization: every nonempty subset of the nodes contains a node none
of whose dependencies lie in the subset (equivalent to the absence of
dependency cycles on a finite graph, and decidable). -/
def Acyclic (g : List (α × List α)) : Prop :=
  ∀ S ∈ (keys g).sublists, S ≠ [] → ∃ n ∈ S, ∀ d ∈ depsOf g n, d ∉ S

instance acyclicDecidable (g : List (α × List α)) : Decidable (Acyclic g) := by
  unfold Acyclic
  infer_instance

theorem insertDesc_perm (pr : α → Nat) (a : α) (l : List α) :
    List.Perm (insertDesc pr a l) (a :: l) := by
  induction l with
  | nil => exact List.Perm.refl _
  | cons b bs ih =>
    rw [insertDesc]
    split
    · exact List.Perm.refl _
    · exact (List.Perm.cons b ih).trans (List.Perm.swap a b bs)

theorem sortDesc_perm (pr : α → Nat) (l : List α) : List.Perm (sortDesc pr l) l := by
  induction l with
  | nil => exact List.Perm.refl _
  | cons a rest ih =>
    exact (insertDesc_perm pr a (sortDesc pr rest)).trans (List.Perm.cons a ih)

theorem insertDesc_pairwise (pr : α → Nat) (a : α) (l : List α)
    (h : List.Pairwise (fun x y => pr y ≤ pr x) l) :
    List.Pairwise (fun x y => pr y ≤ pr x) (insertDesc pr a l) := by
  induction l with
  | nil => simp [insertDesc]
  | cons b bs ih =>
    rw [insertDesc]
    rcases List.pairwise_cons.mp h with ⟨hb, hbs⟩
    split
    · rename_i hba
      refine List.pairwise_cons.mpr ⟨?_, h⟩
      intro y hy
      rcases List.mem_cons.mp hy with h1 | h1
      · rw [h1]; exact hba
      · exact le_trans (hb y h1) hba
    · rename_i hba
      refine List.pairwise_cons.mpr ⟨?_, ih hbs⟩
      intro y hy
      have hy2 : y ∈ a :: bs := (insertDesc_perm pr a bs).mem_iff.mp hy
      rcases List.mem_cons.mp hy2 with h1 | h1
      · rw [h1]; omega
      · exact hb y h1

theorem sortDesc_pairwise (pr : α → Nat) (l : List α) :
    List.Pairwise (fun x y => pr y ≤ pr x) (sortDesc pr l) := by
  induction l with
  | nil => simp [sortDesc]
  | cons a rest ih => exact insertDesc_pairwise pr a _ ih

theorem sortDesc_head_max (pr : α → Nat) (l : List α) (n : α) (t : List α)
    (h : sortDesc pr l = n :: t) : ∀ m ∈ l, pr m ≤ pr n := by
  intro m hm
  have hmem : m ∈ n :: t := by
    rw [← h]
    exact (sortDesc_perm pr l).mem_iff.mpr hm
  rcases List.mem_cons.mp hmem with h1 | h1
  · rw [h1]
  · have hp := sortDesc_pairwise pr l
    rw [h] at hp
    exact (List.pairwise_cons.mp hp).1 m h1

theorem sortDesc_ne_nil (pr : α → Nat) (l : List α) (h : l ≠ []) :
    sortDesc pr l ≠ [] := by
  intro hcon
  exact h (List.Perm.eq_nil ((sortDesc_perm pr l).symm.trans (hcon ▸ List.Perm.refl _)))

theorem mem_of_head_some {l : List α} {n : α} (h : l.head? = some n) : n ∈ l := by
  cases l with
  | nil => simp at h
  | cons a t =>
    simp at h
    rw [h]
    exact List.mem_cons_self n t

theorem mem_remainingNodes_iff (g : List (α × List α)) (visited : List α) (n : α) :
    n ∈ remainingNodes g visited ↔ n ∈ keys g ∧ n ∉ visited := by
  simp [remainingNodes, List.mem_filter]

theorem mem_kahnCandidates_iff (g : List (α × List α)) (visited : List α) (n : α) :
    n ∈ kahnCandidates g visited ↔
      n ∈ keys g ∧ n ∉ visited ∧ ∀ d ∈ depsOf g n, d ∈ visited := by
  simp [kahnCandidates, List.mem_filter, and_assoc]

theorem kahnCandidates_subset_remaining (g : List (α × List α)) (visited : List α) :
    ∀ n ∈ kahnCandidates g visited, n ∈ remainingNodes g visited := by
  intro n hn
  rw [mem_kahnCandidates_iff] at hn
  rw [mem_remainingNodes_iff]
  exact ⟨hn.1, hn.2.1⟩

theorem pickNext_mem (g : List (α × List α)) (visited : List α) (n : α)
    (h : pickNext g visited = some n) : n ∈ remainingNodes g visited := by
  simp only [pickNext] at h
  by_cases hc : kahnCandidates g visited = []
  · rw [if_pos hc] at h
    have h1 := mem_of_head_some h
    have h2 := (sortDesc_perm (priority g) _).mem_iff.mp h1
    have h3 := List.take_subset 1 (sortDesc (priority g) (remainingNodes g visited)) h2
    exact (sortDesc_perm (priority g) _).mem_iff.mp h3
  · rw [if_neg hc] at h
    exact kahnCandidates_subset_remaining g visited n
      ((sortDesc_perm (priority g) _).mem_iff.mp (mem_of_head_some h))

theorem pickNext_some (g : List (α × List α)) (visited : List α)
    (hrem : remainingNodes g visited ≠ []) : ∃ n, pickNext g visited = some n := by
  simp only [pickNext]
  by_cases hc : kahnCandidates g visited = []
  · rw [if_pos hc]
    rcases hsort : sortDesc (priority g) (remainingNodes g visited) with _ | ⟨m, t⟩
    · exact absurd hsort (sortDesc_ne_nil _ _ hrem)
    · exact ⟨m, rfl⟩
  · rw [if_neg hc]
    rcases hsort : sortDesc (priority g) (kahnCandidates g visited) with _ | ⟨m, t⟩
    · exact absurd hsort (sortDesc_ne_nil _ _ hc)
    · exact ⟨m, rfl⟩

theorem pickNext_kahn (g : List (α × List α)) (visited : List α) (n : α)
    (hc : kahnCandidates g visited ≠ [])
    (h : pickNext g visited = some n) : n ∈ kahnCandidates g visited := by
  simp only [pickNext] at h
  rw [if_neg hc] at h
  exact (sortDesc_perm (priority g) _).mem_iff.mp (mem_of_head_some h)

theorem acyclic_kahn_ne (g : List (α × List α))
    (hwf : ∀ n ∈ keys g, ∀ d ∈ depsOf g n, d ∈ keys g)
    (hacy : Acyclic g) (visited : List α)
    (hrem : remainingNodes g visited ≠ []) : kahnCandidates g visited ≠ [] := by
  obtain ⟨n, hnS, hdep⟩ := hacy (remainingNodes g visited)
    (List.mem_sublists.mpr (List.filter_sublist _)) hrem
  have hnS2 := (mem_remainingNodes_iff g visited n).mp hnS
  have hmem : n ∈ kahnCandidates g visited := by
    rw [mem_kahnCandidates_iff]
    refine ⟨hnS2.1, hnS2.2, ?_⟩
    intro d hd
    have hdk : d ∈ keys g := hwf n hnS2.1 d hd
    by_contra hdv
    exact hdep d hd ((mem_remainingNodes_iff g visited d).mpr ⟨hdk, hdv⟩)
  intro hcon
  rw [hcon] at hmem
  simp at hmem

/-- The prefix-closure invariant: every node of the result has all its
dependencies strictly earlier in the result. -/
def DepClosed (g : List (α × List α)) (result : List α) : Prop :=
  ∀ i (h : i < result.length), ∀ d ∈ depsOf g (result.get ⟨i, h⟩), d ∈ result.take i

theorem topoLoop_main (g : List (α × List α))
    (hnodup : (keys g).Nodup)
    (hwf : ∀ n ∈ keys g, ∀ d ∈ depsOf g n, d ∈ keys g) :
    ∀ fuel result,
      result.Nodup → (∀ x ∈ result, x ∈ keys g) →
      g.length = result.length + fuel →
      (Acyclic g → DepClosed g result) →
      (topoLoopFuel g fuel result).Nodup
      ∧ (∀ x ∈ topoLoopFuel g fuel result, x ∈ keys g)
      ∧ (topoLoopFuel g fuel result).length = g.length
      ∧ (Acyclic g → DepClosed g (topoLoopFuel g fuel result)) := by
  intro fuel
  induction fuel with
  | zero =>
    intro result h1 h2 h3 h4
    rw [topoLoopFuel]
    exact ⟨h1, h2, by omega, h4⟩
  | succ f ih =>
    intro result h1 h2 h3 h4
    rw [topoLoopFuel]
    have hlt : result.length < g.length := by omega
    rw [if_pos hlt]
    have hkeylen : (keys g).length = g.length := by simp [keys]
    have hrem : remainingNodes g result ≠ [] := by
      intro hcon
      have hsub : ∀ k ∈ keys g, k ∈ result := by
        intro k hk
        by_contra hkr
        have hmem : k ∈ remainingNodes g result :=
          (mem_remainingNodes_iff g result k).mpr ⟨hk, hkr⟩
        rw [hcon] at hmem
        simp at hmem
      have h5 : (keys g).toFinset ⊆ result.toFinset := by
        intro x hx
        rw [List.mem_toFinset] at hx ⊢
        exact hsub x hx
      have h6 := Finset.card_le_card h5
      rw [List.toFinset_card_of_nodup hnodup] at h6
      have h7 := List.toFinset_card_le result
      omega
    obtain ⟨n, hn⟩ := pickNext_some g result hrem
    rw [hn]
    have hnrem := (mem_remainingNodes_iff g result n).mp (pickNext_mem g result n hn)
    obtain ⟨hnk, hnv2⟩ := hnrem
    have h1n : (result ++ [n]).Nodup := by
      rw [List.nodup_append]
      refine ⟨h1, List.nodup_singleton n, ?_⟩
      intro a ha hb
      simp at hb
      rw [hb] at ha
      exact hnv2 ha
    have h2n : ∀ x ∈ result ++ [n], x ∈ keys g := by
      intro x hx
      rcases List.mem_append.mp hx with h | h
      · exact h2 x h
      · simp at h
        rw [h]
        exact hnk
    have h4n : Acyclic g → DepClosed g (result ++ [n]) := by
      intro hacy
      have hkne := acyclic_kahn_ne g hwf hacy result hrem
      have hnkahn := (mem_kahnCandidates_iff g result n).mp
        (pickNext_kahn g result n hkne hn)
      have hdeps : ∀ d ∈ depsOf g n, d ∈ result := hnkahn.2.2
      intro i hi d hd
      by_cases hir : i < result.length
      · have hget : (result ++ [n]).get ⟨i, hi⟩ = result.get ⟨i, hir⟩ := by
          simp only [List.get_eq_getElem]
          exact List.getElem_append_left hir
        rw [hget] at hd
        rw [List.take_append_of_le_length (le_of_lt hir)]
        exact (h4 hacy) i hir d hd
      · have hieq : i = result.length := by
          simp at hi
          omega
        subst hieq
        have hget : (result ++ [n]).get ⟨result.length, hi⟩ = n := by
          simp only [List.get_eq_getElem]
          exact List.getElem_concat_length result n _ rfl _
        rw [hget] at hd
        rw [List.take_append_of_le_length (le_refl _), List.take_length]
        exact hdeps d hd
    exact ih (result ++ [n]) h1n h2n (by simp at h3 ⊢; omega) h4n

/-- C7: on a dependency graph with unique keys and in-graph dependencies,
topological_sort lists every node exactly once; when the graph is acyclic,
every node appears strictly after each of its dependencies; and whenever
the Kahn candidate set is empty (a cycle) with nodes remaining, the
selected node carries the highest dependent count among the remaining
nodes. -/
theorem topological_sort_spec (g : List (α × List α))
    (hnodup : (keys g).Nodup)
    (hwf : ∀ n ∈ keys g, ∀ d ∈ depsOf g n, d ∈ keys g) :
    (∀ n ∈ keys g, (topological_sort g).count n = 1)
    ∧ (Acyclic g → ∀ n ∈ keys g, ∀ d ∈ depsOf g n,
        (topological_sort g).indexOf d < (topological_sort g).indexOf n)
    ∧ (∀ visited, kahnCandidates g visited = [] → remainingNodes g visited ≠ [] →
        ∃ n, pickNext g visited = some n ∧ n ∈ remainingNodes g visited
          ∧ ∀ m ∈ remainingNodes g visited, priority g m ≤ priority g n) := by
  obtain ⟨hnd, hsub, hlen, hdc⟩ := topoLoop_main g hnodup hwf g.length []
    List.nodup_nil (by simp) (by simp)
    (fun _ => fun i hi => absurd hi (by simp))
  have hts : topological_sort g = topoLoopFuel g g.length [] := rfl
  rw [hts]
  have hkeylen : (keys g).length = g.length := by simp [keys]
  have hall : ∀ n ∈ keys g, n ∈ topoLoopFuel g g.length [] := by
    intro n hn
    have h1 : (topoLoopFuel g g.length []).toFinset ⊆ (keys g).toFinset := by
      intro x hx
      rw [List.mem_toFinset] at hx ⊢
      exact hsub x hx
    have hcard1 : (topoLoopFuel g g.length []).toFinset.card = g.length := by
      rw [List.toFinset_card_of_nodup hnd, hlen]
    have hcard2 : (keys g).toFinset.card = g.length := by
      rw [List.toFinset_card_of_nodup hnodup, hkeylen]
    have heq : (topoLoopFuel g g.length []).toFinset = (keys g).toFinset :=
      Finset.eq_of_subset_of_card_le h1 (by omega)
    rw [← List.mem_toFinset, heq, List.mem_toFinset]
    exact hn
  refine ⟨?_, ?_, ?_⟩
  · intro n hn
    exact List.count_eq_one_of_mem hnd (hall n hn)
  · intro hacy n hn d hd
    have hdeps := hdc hacy
    obtain ⟨i, hi, hout⟩ := List.getElem_of_mem (hall n hn)
    have hd2 : d ∈ (topoLoopFuel g g.length []).take i := by
      refine hdeps i hi d ?_
      have hget : (topoLoopFuel g g.length []).get ⟨i, hi⟩ = n := by simpa using hout
      rw [hget]
      exact hd
    rw [List.mem_take_iff_getElem] at hd2
    obtain ⟨j, hj, hjd⟩ := hd2
    have hji : j < i := lt_of_lt_of_le hj (min_le_left _ _)
    have hj2 : j < (topoLoopFuel g g.length []).length := lt_of_lt_of_le hj (min_le_right _ _)
    have hidxn : (topoLoopFuel g g.length []).indexOf n = i := by
      rw [← hout]
      exact List.indexOf_getElem hnd i hi
    have hidxd : (topoLoopFuel g g.length []).indexOf d = j := by
      rw [← hjd]
      exact List.indexOf_getElem hnd j hj2
    rw [hidxn, hidxd]
    exact hji
  · intro visited hkahn hrem
    rcases hsort : sortDesc (priority g) (remainingNodes g visited) with _ | ⟨m, t⟩
    · exact absurd hsort (sortDesc_ne_nil _ _ hrem)
    · refine ⟨m, ?_, ?_, ?_⟩
      · simp only [pickNext]
        rw [if_pos hkahn, hsort]
        rfl
      · refine (sortDesc_perm (priority g) _).mem_iff.mp ?_
        rw [hsort]
        exact List.mem_cons_self m t
      · intro x hx
        exact sortDesc_head_max (priority g) _ m t hsort x hx

end TopoSort

/-- C7 witness: a two-file graph where file 1 depends on file 2: each node
appears exactly once and the dependency comes first. -/
theorem topological_sort_spec_witness :
    (topological_sort [((1 : Nat), [2]), (2, [])]).count 1 = 1
    ∧ (topological_sort [((1 : Nat), [2]), (2, [])]).count 2 = 1
    ∧ (topological_sort [((1 : Nat), [2]), (2, [])]).indexOf 2
        < (topological_sort [((1 : Nat), [2]), (2, [])]).indexOf 1 :=
  ⟨(topological_sort_spec [((1 : Nat), [2]), (2, [])] (by decide) (by decide)).1
      1 (by decide),
    (topological_sort_spec [((1 : Nat), [2]), (2, [])] (by decide) (by decide)).1
      2 (by decide),
    (topological_sort_spec [((1 : Nat), [2]), (2, [])] (by decide) (by decide)).2.1
      (by decide) 1 (by decide) 2 (by decide)⟩

/-- A parsed fix-it hint: 1-based start and end line and column plus the
replacement text (parse_gcc_fixits captures nonnegative integers and
unescapes the replacement). -/
structure Fixit where
  lineStart : Nat
  colStart : Nat
  lineEnd : Nat
  colEnd : Nat
  repl : List Char
deriving DecidableEq

/-- Descending lexicographic comparison of (start line, start column): the
sort key of apply_fixits under reverse=True. -/
def fixitKeyGe (a b : Fixit) : Bool :=
  b.lineStart < a.lineStart || (b.lineStart = a.lineStart && b.colStart ≤ a.colStart)

/-- Stable insertion for the descending fix-it sort (the earlier element
goes first on equal keys, as Python's stable sort keeps it). -/
def insertDescFix (a : Fixit) : List Fixit → List Fixit
  | [] => [a]
  | b :: bs => if fixitKeyGe a b then a :: b :: bs else b :: insertDescFix a bs

/-- Stable descending sort of fix-its by (line, column): the sorted() call
of apply_fixits with reverse=True. -/
def sortDescFix : List Fixit → List Fixit
  | [] => []
  | a :: rest => insertDescFix a (sortDescFix rest)

/-- Python line[:k-1] for the 1-based fix-it column k; for k = 0 the index
k-1 is negative and wraps to all but the last character. -/
def sliceTo (line : List Char) (k : Nat) : List Char :=
  if k = 0 then line.take (line.length - 1) else line.take (k - 1)

/-- Python line[k-1:] with the same negative wrap for k = 0. -/
def sliceFrom (line : List Char) (k : Nat) : List Char :=
  if k = 0 then line.drop (line.length - 1) else line.drop (k - 1)

/-- One fix-it applied to the current line array (the loop body of
apply_fixits): only a single-line hint within the current bounds is
applied, and only when it changes the line. -/
def applyFixitStep (st : List (List Char) × Bool) (f : Fixit) :
    List (List Char) × Bool :=
  if f.lineStart = f.lineEnd ∧ 0 < f.lineStart ∧ f.lineStart ≤ st.1.length then
    let line := st.1.getD (f.lineStart - 1) []
    if f.colStart ≤ line.length + 1 ∧ f.colEnd ≤ line.length + 1 then
      let newLine := sliceTo line f.colStart ++ f.repl ++ sliceFrom line f.colEnd
      if newLine ≠ line then (st.1.set (f.lineStart - 1) newLine, true)
      else (st.1, st.2)
    else (st.1, st.2)
  else (st.1, st.2)

/-- apply_fixits (auto_fix_multilang.py:447): sort the hints by source
position descending and apply them in that order to the line array. -/
def apply_fixits (code : List Char) (fixits : List Fixit) : List Char × Bool :=
  if fixits = [] then (code, false)
  else
    let st := (sortDescFix fixits).foldl applyFixitStep (splitNl code, false)
    (joinNl st.1, st.2)

theorem set_getD_self {β : Type} (l : List β) (d : β) (i : Nat) (h : i < l.length) :
    l.set i (l.getD i d) = l := by
  induction l generalizing i with
  | nil => simp at h
  | cons a t ih =>
    cases i with
    | zero => simp
    | succ j =>
      simp only [List.set, List.getD_cons_succ]
      rw [ih j (by simpa using h)]

/-- C8: two single-line fix-it hints on the same line with disjoint spans
are applied in descending column order regardless of the input order, and
the earlier (higher-position) edit does not invalidate the later one: the
result splices both replacements at their original coordinates. -/
theorem apply_fixits_orig_coords (code : List Char) (f1 f2 : Fixit)
    (h11 : f1.lineEnd = f1.lineStart) (h21 : f2.lineEnd = f2.lineStart)
    (hsame : f2.lineStart = f1.lineStart)
    (hl1 : 0 < f1.lineStart) (hl2 : f1.lineStart ≤ (splitNl code).length)
    (hc2s : 1 ≤ f2.colStart) (hc2se : f2.colStart ≤ f2.colEnd)
    (hc21 : f2.colEnd ≤ f1.colStart)
    (hord : f2.colStart < f1.colStart)
    (hc1se : f1.colStart ≤ f1.colEnd)
    (hbound : f1.colEnd ≤ ((splitNl code).getD (f1.lineStart - 1) []).length + 1) :
    (apply_fixits code [f1, f2]).1
        = joinNl ((splitNl code).set (f1.lineStart - 1)
          (((splitNl code).getD (f1.lineStart - 1) []).take (f2.colStart - 1)
            ++ f2.repl
            ++ ((((splitNl code).getD (f1.lineStart - 1) []).take (f1.colStart - 1)).drop
                  (f2.colEnd - 1))
            ++ f1.repl
            ++ ((splitNl code).getD (f1.lineStart - 1) []).drop (f1.colEnd - 1)))
    ∧ (apply_fixits code [f2, f1]).1 = (apply_fixits code [f1, f2]).1 := by
  set lines := splitNl code with hlinesdef
  set k := f1.lineStart - 1 with hkdef
  set L := lines.getD k [] with hLdef
  have hkl : k < lines.length := by omega
  have hc1s0 : ¬ f1.colStart = 0 := by omega
  have hc1e0 : ¬ f1.colEnd = 0 := by omega
  have hc2s0 : ¬ f2.colStart = 0 := by omega
  have hc2e0 : ¬ f2.colEnd = 0 := by omega
  have hc1sL : f1.colStart - 1 ≤ L.length := by omega
  set A := L.take (f1.colStart - 1) with hAdef
  set B := L.drop (f1.colEnd - 1) with hBdef
  have hAlen : A.length = f1.colStart - 1 := by
    rw [hAdef, List.length_take]
    omega
  have hkey12 : fixitKeyGe f1 f2 = true := by
    simp only [fixitKeyGe, hsame]
    simp
    omega
  have hkey21 : fixitKeyGe f2 f1 = false := by
    simp only [fixitKeyGe, hsame]
    simp
    omega
  have hsort1 : sortDescFix [f1, f2] = [f1, f2] := by
    simp [sortDescFix, insertDescFix, hkey12]
  have hsort2 : sortDescFix [f2, f1] = [f1, f2] := by
    simp [sortDescFix, insertDescFix, hkey21]
  set nl1 := A ++ f1.repl ++ B with hnl1def
  have hcond1 : f1.lineStart = f1.lineEnd ∧ 0 < f1.lineStart ∧ f1.lineStart ≤ lines.length :=
    ⟨h11.symm, hl1, hl2⟩
  have hstep1 : ∀ b : Bool, (applyFixitStep (lines, b) f1).1 = lines.set k nl1 := by
    intro b
    simp only [applyFixitStep]
    rw [if_pos hcond1]
    rw [← hkdef, ← hLdef]
    rw [if_pos (⟨by omega, by omega⟩ :
      f1.colStart ≤ L.length + 1 ∧ f1.colEnd ≤ L.length + 1)]
    rw [sliceTo, sliceFrom, if_neg hc1s0, if_neg hc1e0]
    by_cases hch : A ++ f1.repl ++ B ≠ L
    · rw [if_pos hch]
    · rw [if_neg hch]
      push_neg at hch
      show lines = lines.set k nl1
      rw [hnl1def, hch, hLdef, set_getD_self _ _ _ hkl]
  have hnl1len : f1.colStart - 1 ≤ nl1.length := by
    rw [hnl1def]
    simp only [List.length_append]
    omega
  have hA2 : f2.colEnd - 1 ≤ A.length := by omega
  have htake2 : nl1.take (f2.colStart - 1) = L.take (f2.colStart - 1) := by
    rw [hnl1def, List.append_assoc, List.take_append_of_le_length (by omega), hAdef,
      List.take_take]
    congr 1
    omega
  have hdrop2 : nl1.drop (f2.colEnd - 1) = A.drop (f2.colEnd - 1) ++ (f1.repl ++ B) := by
    rw [hnl1def, List.append_assoc, List.drop_append_eq_append_drop,
      show f2.colEnd - 1 - A.length = 0 from by omega, List.drop_zero]
  set nl2 := L.take (f2.colStart - 1) ++ f2.repl ++ (A.drop (f2.colEnd - 1) ++ (f1.repl ++ B))
    with hnl2def
  have hcond2 : f2.lineStart = f2.lineEnd ∧ 0 < f2.lineStart ∧ f2.lineStart
      ≤ (lines.set k nl1).length := by
    rw [List.length_set]
    exact ⟨h21.symm, by omega, by omega⟩
  have hstep2 : ∀ b : Bool,
      (applyFixitStep (lines.set k nl1, b) f2).1 = lines.set k nl2 := by
    intro b
    simp only [applyFixitStep]
    rw [if_pos hcond2]
    have hidx : f2.lineStart - 1 = k := by omega
    rw [hidx, getD_set_self _ _ _ hkl]
    rw [if_pos (⟨by omega, by omega⟩ :
      f2.colStart ≤ nl1.length + 1 ∧ f2.colEnd ≤ nl1.length + 1)]
    rw [sliceTo, sliceFrom, if_neg hc2s0, if_neg hc2e0, htake2, hdrop2]
    by_cases hch : L.take (f2.colStart - 1) ++ f2.repl
        ++ (A.drop (f2.colEnd - 1) ++ (f1.repl ++ B)) ≠ nl1
    · rw [if_pos hch, List.set_set]
    · rw [if_neg hch]
      push_neg at hch
      show lines.set k nl1 = lines.set k nl2
      rw [hnl2def, hch]
  have hresult : (apply_fixits code [f1, f2]).1 = joinNl (lines.set k nl2) := by
    show ((if ([f1, f2] : List Fixit) = [] then (code, false)
      else ((sortDescFix [f1, f2]).foldl applyFixitStep (splitNl code, false)
        |> fun st => (joinNl st.1, st.2))) : List Char × Bool).1 = _
    rw [if_neg (by simp), hsort1]
    show joinNl ((applyFixitStep (applyFixitStep (splitNl code, false) f1) f2).1) = _
    have hP : applyFixitStep (applyFixitStep (splitNl code, false) f1) f2
        = applyFixitStep ((applyFixitStep (splitNl code, false) f1).1,
            (applyFixitStep (splitNl code, false) f1).2) f2 := rfl
    rw [hP, hstep1 false, hstep2 _]
  constructor
  · rw [hresult]
    congr 1
    rw [hnl2def, hAdef]
    simp [List.append_assoc]
  · rw [hresult]
    show ((if ([f2, f1] : List Fixit) = [] then (code, false)
      else ((sortDescFix [f2, f1]).foldl applyFixitStep (splitNl code, false)
        |> fun st => (joinNl st.1, st.2))) : List Char × Bool).1 = _
    rw [if_neg (by simp), hsort2]
    show joinNl ((applyFixitStep (applyFixitStep (splitNl code, false) f1) f2).1) = _
    have hP : applyFixitStep (applyFixitStep (splitNl code, false) f1) f2
        = applyFixitStep ((applyFixitStep (splitNl code, false) f1).1,
            (applyFixitStep (splitNl code, false) f1).2) f2 := rfl
    rw [hP, hstep1 false, hstep2 _]

/-- C8 witness: two disjoint hints on one concrete line, given in either
order, produce both replacements at their original coordinates. -/
theorem apply_fixits_orig_coords_witness :
    (apply_fixits ("abcdef".toList)
        [⟨1, 5, 1, 6, "XY".toList⟩, ⟨1, 2, 1, 3, "Z".toList⟩]).1 = "aZcdXYf".toList
    ∧ (apply_fixits ("abcdef".toList)
        [⟨1, 2, 1, 3, "Z".toList⟩, ⟨1, 5, 1, 6, "XY".toList⟩]).1 = "aZcdXYf".toList := by
  obtain ⟨h1, h2⟩ := apply_fixits_orig_coords ("abcdef".toList)
    ⟨1, 5, 1, 6, "XY".toList⟩ ⟨1, 2, 1, 3, "Z".toList⟩ rfl rfl rfl
    (by decide) (by decide) (by decide) (by decide) (by decide) (by decide)
    (by decide) (by decide)
  constructor
  · rw [h1]
    decide
  · rw [h2, h1]
    decide

/-- C8 counterexample: a hint whose span covers two lines is skipped
entirely, so the result does not apply that hint's replacement at its
coordinates. -/
theorem apply_fixits_multiline_cex :
    apply_fixits ("ab\ncd".toList) [⟨1, 1, 2, 1, "Q".toList⟩]
      = ("ab\ncd".toList, false) := by
  decide

end AutoFix
